import Mathlib

/-!
Verification of the document segmentation & deduplication engine
(boundary parser, chunk builder, quality gate, dedup engine).

Texts are modelled as `List Char` (Python strings are sequences of code
points). Python floats are modelled as exact rationals `ℚ`. Regex scans
whose full generality is irrelevant to the claims (the nine question
patterns and the heading+code-block pattern of the boundary parser) are
abstracted as lists of match records constrained by the properties every
`re.finditer` result satisfies; all other regex operations used by the
code (the blank-line splitter `\n\s*\n`, the answer-marker substitutions,
the step-marker / numbering tests, repetition scans) are implemented
directly, following the source.
-/

/-- Characters treated as whitespace by Python's `str.strip` / regex `\s`
(ASCII whitespace plus the ideographic and no-break spaces; the further
exotic Unicode space code points never occur in this pipeline's data). -/
def pyIsSpace (c : Char) : Bool :=
  c = ' ' || c = '\t' || c = '\n' || c = '\r' ||
  c = Char.ofNat 11 || c = Char.ofNat 12 ||
  c = Char.ofNat 0x3000 || c = Char.ofNat 0xA0

abbrev Str := List Char

/-- Python `str.strip()`: drop leading and trailing whitespace. -/
def pyStrip (cs : Str) : Str :=
  ((cs.dropWhile pyIsSpace).reverse.dropWhile pyIsSpace).reverse

/-- Python `str.lstrip('\n')`. -/
def lstripNewline (cs : Str) : Str :=
  cs.dropWhile (fun c => c = '\n')

/-- Python slice `text[a:b]` for `0 ≤ a ≤ b` (Nat indices). -/
def pySlice (cs : Str) (a b : Nat) : Str :=
  (cs.drop a).take (b - a)

/-- Python slice `text[-k:]`, the last `k` characters. -/
def pyTakeLast (cs : Str) (k : Nat) : Str :=
  cs.drop (cs.length - k)

/-- CJK unified ideograph test, the `一-鿿` regex range. -/
def isCJK (c : Char) : Bool :=
  0x4E00 ≤ c.toNat && c.toNat ≤ 0x9FFF

def isAsciiLetter (c : Char) : Bool :=
  ('a' ≤ c && c ≤ 'z') || ('A' ≤ c && c ≤ 'Z')

def isAsciiDigit (c : Char) : Bool :=
  '0' ≤ c && c ≤ '9'

/-- Regex `\w` on the character sets this pipeline uses: ASCII letters,
digits, underscore, and CJK ideographs. -/
def isWordChar (c : Char) : Bool :=
  isAsciiLetter c || isAsciiDigit c || c = '_' || isCJK c

theorem dropWhile_length_le (p : Char → Bool) :
    ∀ l : Str, (l.dropWhile p).length ≤ l.length
  | [] => by simp [List.dropWhile]
  | c :: rest => by
    simp only [List.dropWhile]
    split
    · exact Nat.le_trans (dropWhile_length_le p rest) (by simp)
    · simp

/-- Length of the maximal whitespace run at the front (greedy `\s*`). -/
def wsRunLen (cs : Str) : Nat :=
  (cs.takeWhile pyIsSpace).length

/-- Index (from the front) of the last `'\n'` inside a list, if any. -/
def lastNewlineIdx (cs : Str) : Option Nat :=
  match cs.reverse.findIdx? (fun c => c = '\n') with
  | some j => some (cs.length - 1 - j)
  | none => none

/-- Length of the separator match of `re.split(r'\n\s*\n', ·)` starting at
the head of `cs`, if any: a `'\n'`, then greedily as much whitespace as
possible subject to the final character being another `'\n'`. -/
def blankSepMatch (cs : Str) : Option Nat :=
  match cs with
  | [] => none
  | c :: rest =>
    if c = '\n' then
      match lastNewlineIdx (rest.takeWhile pyIsSpace) with
      | some j => some (j + 2)
      | none => none
    else none

/-- `re.split(r'\n\s*\n', text)`: scan left to right for separator
matches; pieces between matches (possibly empty) are returned. The fuel
argument (initialised to the text length, which bounds the number of
steps) only serves structural termination and is never exhausted. -/
def splitBlankAux : Nat → Str → Str → List Str
  | _, acc, [] => [acc.reverse]
  | 0, acc, cs => [acc.reverse ++ cs]
  | fuel + 1, acc, c :: rest =>
    match blankSepMatch (c :: rest) with
    | some (k + 1) => acc.reverse :: splitBlankAux fuel [] (rest.drop k)
    | _ => splitBlankAux fuel (c :: acc) rest

def splitBlank (cs : Str) : List Str :=
  splitBlankAux cs.length [] cs

/-- Python `'\n\n'.join(parts)` and friends. -/
def joinSep (sep : Str) : List Str → Str
  | [] => []
  | [p] => p
  | p :: rest => p ++ sep ++ joinSep sep rest

/-- Metadata values stored in a chunk's `metadata` dict. -/
inductive MetaVal where
  | b (v : Bool)
  | n (v : Nat)
  | s (v : Str)
  | null
deriving DecidableEq, Repr

/-- `src/数据/src/parsers/qa_parser.py`, dataclass `QAPair`. -/
structure QAPair where
  question : Str
  answer : Str
  question_num : Option Nat := none
  source_file : Option Str := none
  page_num : Option Nat := none
  start_pos : Nat := 0
  end_pos : Nat := 0
deriving DecidableEq, Repr

/-- `QAPair.full_text`: `f"{question}\n\n{answer}"`. -/
def QAPair.full_text (qa : QAPair) : Str :=
  qa.question ++ ['\n', '\n'] ++ qa.answer

/-- `QAPair.char_count` property: always recomputed from `full_text`. -/
def QAPair.char_count (qa : QAPair) : Nat :=
  qa.full_text.length

/-- `src/数据/src/parsers/chunker.py`, dataclass `Chunk`. -/
structure Chunk where
  chunk_id : Str
  content : Str
  question : Option Str := none
  answer : Option Str := none
  chunk_type : Str := ['q', 'a']
  source_file : Option Str := none
  page_num : Option Nat := none
  question_num : Option Nat := none
  metadata : List (Str × MetaVal) := []
deriving DecidableEq, Repr

/-- `Chunk.char_count` property: always recomputed, never cached. -/
def Chunk.char_count (c : Chunk) : Nat :=
  c.content.length

/-- `src/data/src/config/settings.py`, `ChunkerConfig` (defaults 1500/50/100). -/
structure ChunkerConfig where
  max_chunk_size : Nat := 1500
  min_chunk_size : Nat := 50
  overlap_size : Nat := 100
deriving Repr

/-- `src/data/src/config/settings.py`, `QualityConfig`. -/
structure QualityConfig where
  garbled_threshold : ℚ := mkRat 3 10
  min_content_length : Nat := 20
  dedup_threshold : ℚ := mkRat 95 100
  sample_ratio : ℚ := mkRat 1 10
deriving Repr

/-! ## Deduplicator (`src/数据/src/quality/deduplicator.py`) -/

/-- ASCII lowercase mapping of Python `str.lower()` (CJK unaffected). -/
def toLowerChar (c : Char) : Char :=
  if 'A' ≤ c && c ≤ 'Z' then Char.ofNat (c.toNat + 32) else c

/-- `re.sub(r'\s+', ' ', text)`: each maximal whitespace run becomes one
space. -/
def collapseWs (cs : Str) : Str :=
  match cs with
  | [] => []
  | c :: rest =>
    if pyIsSpace c then ' ' :: collapseWs (rest.dropWhile pyIsSpace)
    else c :: collapseWs rest
termination_by cs.length
decreasing_by
  · simp only [List.length_cons]
    have := dropWhile_length_le pyIsSpace rest
    omega
  · simp

/-- `Deduplicator._normalize_text`: lowercase, collapse whitespace, strip
everything outside `\w`, `\s` and CJK, then strip. -/
def dedupNormalizeText (cs : Str) : Str :=
  pyStrip (((collapseWs (cs.map toLowerChar))).filter
    (fun c => isWordChar c || pyIsSpace c))

/-- `Deduplicator._compute_hash`: the source hashes the normalized text
with md5 and uses the digest only as a dictionary key; md5 is modelled as
injective, so the key is the normalized text itself. -/
def computeHash (cs : Str) : Str :=
  dedupNormalizeText cs

/-- Lookup in the model of the Python dict `seen_hashes` (first match;
insertion prepends, so the most recent binding wins, as dict overwrite). -/
def dictLookup (m : List (Str × Chunk)) (k : Str) : Option Chunk :=
  match m with
  | [] => none
  | (k', v) :: rest => if k = k' then some v else dictLookup rest k

/-- The loop body of `Deduplicator._exact_dedup`, with the local state
(the `seen_hashes` dict, the `unique_chunks` and `duplicates` lists)
threaded explicitly. -/
def exactLoop (seen : List (Str × Chunk)) (unique : List Chunk)
    (dups : List (Str × Str)) :
    List Chunk → List (Str × Chunk) × List Chunk × List (Str × Str)
  | [] => (seen, unique, dups)
  | chunk :: rest =>
    match dictLookup seen (computeHash chunk.content) with
    | some existing =>
      if existing.content.length < chunk.content.length then
        exactLoop ((computeHash chunk.content, chunk) :: seen)
          ((unique.filter (fun c => c.chunk_id ≠ existing.chunk_id)) ++ [chunk])
          (dups ++ [(existing.chunk_id, chunk.chunk_id)]) rest
      else
        exactLoop seen unique (dups ++ [(chunk.chunk_id, existing.chunk_id)]) rest
    | none =>
      exactLoop ((computeHash chunk.content, chunk) :: seen) (unique ++ [chunk]) dups rest

/-- `Deduplicator._exact_dedup`: returns `(unique_chunks, duplicates)`. -/
def exactDedup (chunks : List Chunk) : List Chunk × List (Str × Str) :=
  (exactLoop [] [] [] chunks).2

/-- `Deduplicator.deduplicate`: phase 1 exact dedup; phase 2 similarity
dedup is commented out in the source (`similar_dups = []`), so the
threshold (`threshold or self.config.dedup_threshold`, Python `or`
treating `0.0` as falsy) is computed but unused. -/
def deduplicate (config : QualityConfig) (chunks : List Chunk)
    (threshold : Option ℚ) : List Chunk × List (Str × Str) :=
  let _th : ℚ :=
    match threshold with
    | some t => if t = 0 then config.dedup_threshold else t
    | none => config.dedup_threshold
  let r := exactDedup chunks
  let similar_dups : List (Str × Str) := []
  (r.1, r.2 ++ similar_dups)

/-! ### Lemmas about the exact-dedup loop -/

theorem dictLookup_cons (k' : Str) (v : Chunk) (m : List (Str × Chunk)) (k : Str) :
    dictLookup ((k', v) :: m) k = if k = k' then some v else dictLookup m k := rfl

/-- Loop invariant: every chunk retained in `unique_chunks` is the chunk
currently registered in `seen_hashes` under its own content hash. -/
def seenConsistent (seen : List (Str × Chunk)) (unique : List Chunk) : Prop :=
  ∀ c ∈ unique, dictLookup seen (computeHash c.content) = some c

theorem exactLoop_invariant (l : List Chunk) :
    ∀ (seen : List (Str × Chunk)) (unique : List Chunk) (dups : List (Str × Str)),
    seenConsistent seen unique → unique.Nodup →
    seenConsistent (exactLoop seen unique dups l).1 (exactLoop seen unique dups l).2.1 ∧
    (exactLoop seen unique dups l).2.1.Nodup := by
  induction l with
  | nil => intro seen unique dups hinv hnd; exact ⟨hinv, hnd⟩
  | cons chunk rest ih =>
    intro seen unique dups hinv hnd
    cases hlook : dictLookup seen (computeHash chunk.content) with
    | none =>
      simp only [exactLoop, hlook]
      apply ih
      · intro c hc
        rcases List.mem_append.1 hc with hcu | hcs
        · rw [dictLookup_cons]
          have hs := hinv c hcu
          by_cases heq : computeHash c.content = computeHash chunk.content
          · rw [heq] at hs; rw [hs] at hlook; cases hlook
          · rw [if_neg heq]; exact hinv c hcu
        · have : c = chunk := by simpa using hcs
          subst this
          rw [dictLookup_cons, if_pos rfl]
      · refine (List.nodup_append).2 ⟨hnd, List.nodup_singleton _, ?_⟩
        intro a ha hb
        have : a = chunk := by simpa using hb
        subst this
        have := hinv a ha
        rw [this] at hlook; cases hlook
    | some existing =>
      by_cases hlen : existing.content.length < chunk.content.length
      · simp only [exactLoop, hlook, if_pos hlen]
        apply ih
        · intro c hc
          rcases List.mem_append.1 hc with hcu | hcs
          · have hmem := List.mem_filter.1 hcu
            have hid : c.chunk_id ≠ existing.chunk_id := by
              simpa using hmem.2
            rw [dictLookup_cons]
            have hs := hinv c hmem.1
            by_cases heq : computeHash c.content = computeHash chunk.content
            · rw [heq] at hs; rw [hs] at hlook
              cases hlook
              exact absurd rfl hid
            · rw [if_neg heq]; exact hs
          · have : c = chunk := by simpa using hcs
            subst this
            rw [dictLookup_cons, if_pos rfl]
        · refine (List.nodup_append).2 ⟨hnd.filter _, List.nodup_singleton _, ?_⟩
          intro a ha hb
          have : a = chunk := by simpa using hb
          subst this
          have hmem := List.mem_filter.1 ha
          have hid : a.chunk_id ≠ existing.chunk_id := by simpa using hmem.2
          have hs := hinv a hmem.1
          rw [hs] at hlook
          cases hlook
          exact absurd rfl hid
      · simp only [exactLoop, hlook, if_neg hlen]
        exact ih seen unique _ hinv hnd

theorem exactDedup_unique_pairwise_hash (chunks : List Chunk) :
    (exactDedup chunks).1.Pairwise
      (fun a b => computeHash a.content ≠ computeHash b.content) := by
  obtain ⟨hinv, hnd⟩ :=
    exactLoop_invariant chunks [] [] [] (by intro c hc; cases hc) List.nodup_nil
  refine hnd.imp_of_mem ?_
  intro a b ha hb hne heq
  have h1 := hinv a ha
  have h2 := hinv b hb
  rw [heq] at h1
  rw [h1] at h2
  cases h2
  exact hne rfl

theorem exactLoop_no_collision (l : List Chunk) :
    ∀ (seen : List (Str × Chunk)) (unique : List Chunk) (dups : List (Str × Str)),
    (∀ c ∈ l, dictLookup seen (computeHash c.content) = none) →
    l.Pairwise (fun a b => computeHash a.content ≠ computeHash b.content) →
    (exactLoop seen unique dups l).2 = (unique ++ l, dups) := by
  induction l with
  | nil => intro seen unique dups _ _; simp [exactLoop]
  | cons chunk rest ih =>
    intro seen unique dups hnone hpw
    simp only [exactLoop, hnone chunk (List.mem_cons_self _ _)]
    have htail := ih ((computeHash chunk.content, chunk) :: seen) (unique ++ [chunk]) dups
      (by
        intro c hc
        rw [dictLookup_cons]
        have hne : computeHash chunk.content ≠ computeHash c.content :=
          (List.pairwise_cons.1 hpw).1 c hc
        rw [if_neg (fun h => hne h.symm)]
        exact hnone c (List.mem_cons_of_mem _ hc))
      (List.pairwise_cons.1 hpw).2
    rw [htail]
    simp

/-- C8: exact dedup is idempotent — applying `_exact_dedup` to the
survivor list of a previous run returns that list unchanged together with
an empty removed-pairs list. -/
theorem exactDedup_idempotent (chunks : List Chunk) :
    exactDedup (exactDedup chunks).1 = ((exactDedup chunks).1, []) := by
  have hpw := exactDedup_unique_pairwise_hash chunks
  have h2 := exactLoop_no_collision (exactDedup chunks).1 [] [] []
    (by intro c _; rfl) hpw
  simpa [exactDedup] using h2

/-- C10: `Deduplicator.deduplicate` is independent of its threshold
argument — the similarity phase is commented out in the source, so for
any two thresholds the `(survivors, removed_pairs)` results coincide and
all removed pairs come from the exact hash-based phase. -/
theorem deduplicate_threshold_independent (config : QualityConfig)
    (chunks : List Chunk) (t1 t2 : Option ℚ) :
    deduplicate config chunks t1 = deduplicate config chunks t2 ∧
    deduplicate config chunks t1 = exactDedup chunks := by
  constructor <;> simp [deduplicate]

/-- C5: two chunks with identical content but different ids — exact dedup
keeps exactly the first (lengths tie, so the earlier wins) and reports
exactly the removed pair `(removed_id, kept_id)`. -/
theorem exactDedup_identical_pair (c1 c2 : Chunk)
    (hc : c1.content = c2.content) (hid : c1.chunk_id ≠ c2.chunk_id) :
    exactDedup [c1, c2] = ([c1], [(c2.chunk_id, c1.chunk_id)]) := by
  have hne : ¬ c1.content.length < c2.content.length := by rw [hc]; exact lt_irrefl _
  simp [exactDedup, exactLoop, dictLookup, hc, hne]

def c5ChunkA : Chunk := { chunk_id := ['i', 'd', '1'], content := ['福', ' ', 'x'] }

def c5ChunkB : Chunk := { chunk_id := ['i', 'd', '2'], content := ['福', ' ', 'x'] }

/-- Witness for C5 at a concrete pair of chunks. -/
theorem exactDedup_identical_pair_witness :
    c5ChunkA.content = c5ChunkB.content ∧ c5ChunkA.chunk_id ≠ c5ChunkB.chunk_id ∧
    exactDedup [c5ChunkA, c5ChunkB] =
      ([c5ChunkA], [(c5ChunkB.chunk_id, c5ChunkA.chunk_id)]) :=
  ⟨rfl, by decide, exactDedup_identical_pair c5ChunkA c5ChunkB rfl (by decide)⟩

/-! ## Quality validator (`src/data/src/quality/validator.py`) -/

/-- Python `min` on two rationals. -/
def pyMin (a b : ℚ) : ℚ := if a ≤ b then a else b

/-- Python `max` on two rationals. -/
def pyMax (a b : ℚ) : ℚ := if a ≤ b then b else a

/- Exact rational arithmetic written through `mkRat`, so that terms built
by the embedded code evaluate by kernel reduction; the lemmas following
each definition identify them with the standard field operations on `ℚ`. -/

/-- `a / b` for natural counts. -/
def ratDivNat (a b : Nat) : ℚ := mkRat a b

/-- `a * b` on `ℚ`. -/
def ratMul (a b : ℚ) : ℚ := mkRat (a.num * b.num) (a.den * b.den)

/-- `a - b` on `ℚ`. -/
def ratSub (a b : ℚ) : ℚ := mkRat (a.num * b.den - b.num * a.den) (a.den * b.den)

/-- Nat cast into `ℚ`. -/
def ratOfNat (n : Nat) : ℚ := mkRat n 1

theorem ratDivNat_eq (a b : Nat) : ratDivNat a b = (a : ℚ) / (b : ℚ) := by
  unfold ratDivNat
  rw [Rat.mkRat_eq_divInt, Rat.divInt_eq_div]
  push_cast
  rfl

theorem ratMul_eq (a b : ℚ) : ratMul a b = a * b := by
  unfold ratMul
  rw [Rat.mkRat_eq_divInt, Rat.divInt_eq_div]
  push_cast
  conv_rhs => rw [← Rat.num_div_den a, ← Rat.num_div_den b]
  rw [div_mul_div_comm]

theorem ratSub_eq (a b : ℚ) : ratSub a b = a - b := by
  have ha : ((a.den : ℚ)) ≠ 0 := by
    exact_mod_cast a.den_nz
  have hb : ((b.den : ℚ)) ≠ 0 := by
    exact_mod_cast b.den_nz
  unfold ratSub
  rw [Rat.mkRat_eq_divInt, Rat.divInt_eq_div]
  push_cast
  conv_rhs => rw [← Rat.num_div_den a, ← Rat.num_div_den b]
  rw [div_sub_div _ _ ha hb]
  ring_nf

theorem ratOfNat_eq (n : Nat) : ratOfNat n = (n : ℚ) := by
  unfold ratOfNat
  rw [Rat.mkRat_eq_divInt, Rat.divInt_eq_div]
  push_cast
  exact div_one _

/-- `src/data/src/quality/validator.py`, dataclass `ValidationResult`. -/
structure ValidationResult where
  chunk_id : Str
  is_valid : Bool
  issues : List Str := []
  scores : List (Str × ℚ) := []
deriving DecidableEq, Repr

/-- Chinese punctuation of the `normal_pattern` allow-list (the source's
`''` are string delimiters, so the ASCII quote is in the class but curly
quotes are not). -/
def cnPunct : Str :=
  ['，', '。', '！', '？', '、', '；', '：', Char.ofNat 34,
   '（', '）', '【', '】', '《', '》']

/-- ASCII punctuation of the allow-list. -/
def enPunct : Str :=
  [',', '.', '!', '?', ';', ':', Char.ofNat 39, Char.ofNat 34,
   '(', ')', '[', ']', Char.ofNat 123, Char.ofNat 125, '<', '>']

/-- Symbol allow-list (`\-\+\*\/\=\#\@\%\&\_\~` and the backquote). -/
def symPunct : Str :=
  ['-', '+', '*', '/', '=', '#', '@', '%', '&', '_', '~', Char.ofNat 96]

/-- The `normal_pattern` character class of `_check_garbled` (CJK, Latin
letters/digits, whitespace, allow-listed punctuation; `\n\r\t` are inside
whitespace). The complement is exactly the `_check_special_chars` class. -/
def isNormalChar (c : Char) : Bool :=
  isCJK c || isAsciiLetter c || isAsciiDigit c || pyIsSpace c ||
  cnPunct.contains c || enPunct.contains c || symPunct.contains c

/-- `QualityValidator._check_garbled`: `1 - normal_chars / total_chars`. -/
def checkGarbled (text : Str) : ℚ :=
  if text = [] then 0
  else ratSub 1 (ratDivNat (text.countP isNormalChar) text.length)

/-- `QualityValidator._check_special_chars`. -/
def checkSpecialChars (text : Str) : ℚ :=
  if text = [] then 0
  else ratDivNat (text.countP (fun c => ! isNormalChar c)) text.length

/-- Number of maximal runs of one repeated character of length ≥ 5: the
non-overlapping matches of `re.findall(r'(.)\1{4,}', text)`, each of which
contributes `len(match) * 4 = 4` (the captured group is one character). -/
def countLongRunsAux : Str → Char → Nat → Nat
  | [], _, run => if run ≥ 5 then 1 else 0
  | c :: rest, prev, run =>
    if c = prev then countLongRunsAux rest prev (run + 1)
    else (if run ≥ 5 then 1 else 0) + countLongRunsAux rest c 1

def countLongRuns : Str → Nat
  | [] => 0
  | c :: rest => countLongRunsAux rest c 1

/-- Python `hay.count(needle)` for a nonempty needle: non-overlapping
occurrences, scanning left to right. -/
def countOccAux (needle : Str) : Nat → Str → Nat
  | 0, _ => 0
  | _, [] => 0
  | fuel + 1, h :: t =>
    if List.isPrefixOf needle (h :: t) then
      1 + countOccAux needle fuel ((h :: t).drop needle.length)
    else countOccAux needle fuel t

def countOcc (needle hay : Str) : Nat :=
  countOccAux needle hay.length hay

/-- Python `needle in hay` (substring containment). -/
def containsSub (needle hay : Str) : Bool :=
  match hay with
  | [] => needle.isEmpty
  | _ :: t => List.isPrefixOf needle hay || containsSub needle t

/-- One window size of the phrase-repetition scan of `_check_repetition`:
the first index `i` whose window `text[i:i+L]` occurs doubled in `text[i:]`
with more than 2 non-overlapping occurrences contributes
`L * (occurrences - 1)`, then the scan breaks. -/
def phraseRep (text : Str) (L : Nat) : Nat :=
  match (List.range (text.length - 2 * L)).find? (fun i =>
      containsSub (pySlice text i (i + L) ++ pySlice text i (i + L)) (text.drop i) &&
      decide (countOcc (pySlice text i (i + L)) (text.drop i) > 2)) with
  | some i => L * (countOcc (pySlice text i (i + L)) (text.drop i) - 1)
  | none => 0

/-- `QualityValidator._check_repetition`: texts shorter than 20 characters
are not checked at all; otherwise single-character runs and the window
sizes 3, 5, 10 contribute credited length, capped at ratio 1. -/
def checkRepetition (text : Str) : ℚ :=
  if text.length < 20 then 0
  else
    let repeated := 4 * countLongRuns text +
      phraseRep text 3 + phraseRep text 5 + phraseRep text 10
    pyMin (ratDivNat repeated text.length) 1

/- Issue messages (the fixed text; the source interpolates the offending
numbers into some of them, which does not change the number or identity of
issues). -/

def issueEmptyContent : Str := "内容为空".toList

def issueTooShort : Str := "内容过短".toList

def issueGarbled : Str := "疑似乱码".toList

def issueRepetition : Str := "大量重复内容".toList

def issueSpecial : Str := "特殊字符过多".toList

def issueNoQuestion : Str := "缺少问题".toList

def issueShortQuestion : Str := "问题过短".toList

def issueNoAnswer : Str := "缺少答案".toList

def issueShortAnswer : Str := "答案过短".toList

/-- `QualityValidator._check_qa_completeness` (Python truthiness: `None`
and the empty string both count as missing). -/
def checkQaCompleteness (chunk : Chunk) : List Str :=
  (match chunk.question with
   | none => [issueNoQuestion]
   | some q =>
     if q = [] then [issueNoQuestion]
     else if q.length < 5 then [issueShortQuestion] else []) ++
  (match chunk.answer with
   | none => [issueNoAnswer]
   | some a =>
     if a = [] then [issueNoAnswer]
     else if a.length < 10 then [issueShortAnswer] else [])

def kGarbled : Str := "garbled_ratio".toList

def kRepetition : Str := "repetition_ratio".toList

def kSpecial : Str := "special_char_ratio".toList

def kOverall : Str := "overall".toList

/-- First-match lookup in the `scores` dict. -/
def scoreLookup (m : List (Str × ℚ)) (k : Str) : Option ℚ :=
  match m with
  | [] => none
  | (k', v) :: rest => if k = k' then some v else scoreLookup rest k

/-- `QualityValidator._calculate_overall_score`: base 1.0, weighted
deductions for each present score, 0.1 per issue, clamped to [0, 1]. -/
def calcOverallScore (scores : List (Str × ℚ)) (issues : List Str) : ℚ :=
  let b1 : ℚ := 1
  let b2 := match scoreLookup scores kGarbled with
    | some v => ratSub b1 (ratMul v (mkRat 5 10))
    | none => b1
  let b3 := match scoreLookup scores kRepetition with
    | some v => ratSub b2 (ratMul v (mkRat 3 10))
    | none => b2
  let b4 := match scoreLookup scores kSpecial with
    | some v => ratSub b3 (ratMul v (mkRat 2 10))
    | none => b3
  let b5 := ratSub b4 (ratMul (ratOfNat issues.length) (mkRat 1 10))
  pyMax 0 (pyMin 1 b5)

/-- `QualityValidator.validate_chunk`. -/
def validateChunk (config : QualityConfig) (chunk : Chunk) : ValidationResult :=
  if pyStrip chunk.content = [] then
    { chunk_id := chunk.chunk_id, is_valid := false,
      issues := [issueEmptyContent], scores := [(kOverall, 0)] }
  else
    let content := chunk.content
    let issues1 := if content.length < config.min_content_length then [issueTooShort] else []
    let g := checkGarbled content
    let issues2 := issues1 ++ (if g > config.garbled_threshold then [issueGarbled] else [])
    let r := checkRepetition content
    let issues3 := issues2 ++ (if r > mkRat 1 2 then [issueRepetition] else [])
    let s := checkSpecialChars content
    let issues4 := issues3 ++ (if s > mkRat 3 10 then [issueSpecial] else [])
    let issues5 := issues4 ++
      (if chunk.chunk_type = ['q', 'a'] then checkQaCompleteness chunk else [])
    let baseScores := [(kGarbled, g), (kRepetition, r), (kSpecial, s)]
    let overall := calcOverallScore baseScores issues5
    { chunk_id := chunk.chunk_id,
      is_valid := decide (issues5 = []) || decide (overall ≥ mkRat 6 10),
      issues := issues5,
      scores := baseScores ++ [(kOverall, overall)] }

/-- `overall` is read back from the end of the scores list (its key
differs from the three ratio keys). -/
theorem scoreLookup_append_overall (g r sp ov : ℚ) :
    scoreLookup ([(kGarbled, g), (kRepetition, r), (kSpecial, sp)] ++
      [(kOverall, ov)]) kOverall = some ov := rfl

/-- The chunk of spec Scenario D: content is ten `啊` characters. -/
def scenarioDChunk : Chunk :=
  { chunk_id := "c1".toList, content := List.replicate 10 '啊' }

/-- A doubled Scenario D chunk: twenty `啊` characters. -/
def scenarioDChunk20 : Chunk :=
  { chunk_id := "c2".toList, content := List.replicate 20 '啊' }

/-- C2 counterexample: for the 10-character chunk `"啊啊啊啊啊啊啊啊啊啊"`,
`_check_repetition` is skipped entirely (length < 20), so
`scores['repetition_ratio']` is 0 — not > 0.5 — and the chunk is in fact
valid (overall 0.7 ≥ 0.6). -/
theorem validateChunk_scenarioD_counterexample :
    scoreLookup (validateChunk {} scenarioDChunk).scores kRepetition = some 0 ∧
    ¬ ((0 : ℚ) > 1 / 2) ∧
    (validateChunk {} scenarioDChunk).is_valid = true := by
  refine ⟨by rfl, by norm_num, by rfl⟩

/-- C2 amended: the repetition check only fires from 20 characters up; for
the doubled chunk `"啊" * 20` (a qa-typed chunk with no question/answer,
as Scenario D's bare construction gives), `repetition_ratio` is 1 > 0.5,
the repetition issue is raised, and the chunk is invalid. -/
theorem validateChunk_scenarioD_amended :
    scoreLookup (validateChunk {} scenarioDChunk20).scores kRepetition = some 1 ∧
    ((1 : ℚ) > 1 / 2) ∧
    (validateChunk {} scenarioDChunk20).issues =
      [issueRepetition, issueNoQuestion, issueNoAnswer] ∧
    (validateChunk {} scenarioDChunk20).is_valid = false := by
  refine ⟨by rfl, by norm_num, by rfl, by rfl⟩

/-- C6: `validate_chunk`'s validity decision — empty (or whitespace-only)
content short-circuits to invalid with overall score 0 and no other
scores; otherwise `is_valid` holds exactly when the issues list is empty
or the overall score is ≥ 0.6. -/
theorem validateChunk_validity (config : QualityConfig) (chunk : Chunk) :
    (pyStrip chunk.content = [] →
      validateChunk config chunk =
        { chunk_id := chunk.chunk_id, is_valid := false,
          issues := [issueEmptyContent], scores := [(kOverall, 0)] }) ∧
    (pyStrip chunk.content ≠ [] →
      ∃ ov : ℚ,
        scoreLookup (validateChunk config chunk).scores kOverall = some ov ∧
        ((validateChunk config chunk).is_valid = true ↔
          (validateChunk config chunk).issues = [] ∨ ov ≥ mkRat 6 10)) := by
  constructor
  · intro h
    simp only [validateChunk, if_pos h]
  · intro h
    simp only [validateChunk, if_neg h]
    refine ⟨_, scoreLookup_append_overall _ _ _ _, ?_⟩
    simp only [Bool.or_eq_true, decide_eq_true_eq]

/-- Witness for C6 at the empty chunk and the Scenario D chunk. -/
theorem validateChunk_validity_witness :
    (validateChunk {} { chunk_id := "e".toList, content := " ".toList } =
      { chunk_id := "e".toList, is_valid := false,
        issues := [issueEmptyContent], scores := [(kOverall, 0)] }) ∧
    (∃ ov : ℚ,
      scoreLookup (validateChunk {} scenarioDChunk).scores kOverall = some ov ∧
      ((validateChunk {} scenarioDChunk).is_valid = true ↔
        (validateChunk {} scenarioDChunk).issues = [] ∨ ov ≥ mkRat 6 10)) :=
  ⟨(validateChunk_validity {} _).1 (by decide),
   (validateChunk_validity {} scenarioDChunk).2 (by decide)⟩

/-! ## `QAParser.merge_short_qas` (`src/数据/src/parsers/qa_parser.py`) -/

/-- The merge step of `merge_short_qas`: the *next* pair's question and
answer are appended as extra answer text onto the short `current` pair,
which keeps its own question, number and metadata; the span covers both
(`start_pos` of the earlier, `end_pos` of the later). -/
def mergePairInto (current qa : QAPair) : QAPair :=
  { question := current.question,
    answer := current.answer ++ ['\n', '\n'] ++ qa.question ++ ['\n'] ++ qa.answer,
    question_num := current.question_num,
    source_file := current.source_file,
    page_num := current.page_num,
    start_pos := current.start_pos,
    end_pos := qa.end_pos }

/-- The loop of `merge_short_qas` (the `current` accumulator made
explicit; `merged.append` becomes consing onto the result). -/
def mergeLoop (min_length : Nat) : Option QAPair → List QAPair → List QAPair
  | none, [] => []
  | some cur, [] => [cur]
  | none, qa :: rest => mergeLoop min_length (some qa) rest
  | some cur, qa :: rest =>
    if cur.char_count < min_length then
      mergeLoop min_length (some (mergePairInto cur qa)) rest
    else cur :: mergeLoop min_length (some qa) rest

/-- `QAParser.merge_short_qas` (the source's initial empty-list return is
the `none, []` case of the loop). -/
def mergeShortQAs (qa_pairs : List QAPair) (min_length : Nat := 50) : List QAPair :=
  mergeLoop min_length none qa_pairs

def c4Short : QAPair :=
  { question := "q1".toList, answer := "a1".toList, question_num := some 1,
    start_pos := 0, end_pos := 6 }

def c4Next : QAPair :=
  { question := "q2 what is a virtual machine".toList,
    answer := "a2 a virtual machine is an emulated computer system".toList,
    question_num := some 2, start_pos := 6, end_pos := 90 }

/-- C4 counterexample: the code folds the *next* pair into the short one,
not the short one into the next — the merged pair keeps the short pair's
question (`"q1"`), and the following pair's question and answer are the
text that gets appended as extra answer. Under the claim the merged pair
would carry the following pair's question. -/
theorem mergeShortQAs_direction_counterexample :
    mergeShortQAs [c4Short, c4Next] 50 = [mergePairInto c4Short c4Next] ∧
    (mergePairInto c4Short c4Next).question = c4Short.question ∧
    c4Short.question ≠ c4Next.question :=
  ⟨rfl, rfl, by decide⟩

/-- C4 amended: `merge_short_qas` folds each pair whose combined length is
below the minimum together with the *next* pair, but in the opposite
direction from the claim: the *following* pair's question and answer are
appended as extra answer text onto the short pair (which keeps its own
question and number), and the combined pair's position range spans both
originals (`start_pos` of the earlier pair, `end_pos` of the later). -/
theorem mergeShortQAs_amended (p q : QAPair) (rest : List QAPair)
    (min_length : Nat) (h : p.char_count < min_length) :
    mergeShortQAs (p :: q :: rest) min_length =
      mergeShortQAs (mergePairInto p q :: rest) min_length ∧
    (mergePairInto p q).question = p.question ∧
    (mergePairInto p q).answer =
      p.answer ++ ['\n', '\n'] ++ q.question ++ ['\n'] ++ q.answer ∧
    (mergePairInto p q).start_pos = p.start_pos ∧
    (mergePairInto p q).end_pos = q.end_pos := by
  refine ⟨?_, rfl, rfl, rfl, rfl⟩
  simp only [mergeShortQAs, mergeLoop, if_pos h]

/-- Witness for C4's amended theorem at the concrete short pair. -/
theorem mergeShortQAs_amended_witness :
    c4Short.char_count < 50 ∧
    mergeShortQAs [c4Short, c4Next] 50 =
      mergeShortQAs [mergePairInto c4Short c4Next] 50 :=
  ⟨by decide, (mergeShortQAs_amended c4Short c4Next [] 50 (by decide)).1⟩

/-! ## `QAParser._clean_answer_text` and the answer-marker substitutions -/

/-- The punctuation class `[\.、:：]` of the answer-marker patterns. -/
def isAnswerPunct (c : Char) : Bool :=
  c = '.' || c = '、' || c = ':' || c = '：'

/-- Match length of `^[Aa]\s*[\.、:：]\s*` at the head of `cs` (greedy
`\s*`; no backtracking is possible since the class and `\s` are
disjoint). -/
def matchAnswerA (cs : Str) : Option Nat :=
  match cs with
  | [] => none
  | c :: rest =>
    if c = 'A' || c = 'a' then
      match rest.drop (wsRunLen rest) with
      | p :: rest2 =>
        if isAnswerPunct p then some (1 + wsRunLen rest + 1 + wsRunLen rest2)
        else none
      | [] => none
    else none

/-- Match length of `^答\s*[\.、:：]\s*`. -/
def matchAnswerDa (cs : Str) : Option Nat :=
  match cs with
  | [] => none
  | c :: rest =>
    if c = '答' then
      match rest.drop (wsRunLen rest) with
      | p :: rest2 =>
        if isAnswerPunct p then some (1 + wsRunLen rest + 1 + wsRunLen rest2)
        else none
      | [] => none
    else none

/-- Match length of `^【答案?】\s*`. -/
def matchAnswerBracket (cs : Str) : Option Nat :=
  match cs with
  | '【' :: '答' :: '案' :: '】' :: rest => some (4 + wsRunLen rest)
  | '【' :: '答' :: '】' :: rest => some (3 + wsRunLen rest)
  | _ => none

/-- Match length of `^解[答析]\s*[\.、:：]?\s*`. -/
def matchAnswerJie (cs : Str) : Option Nat :=
  match cs with
  | c1 :: c2 :: rest =>
    if c1 = '解' && (c2 = '答' || c2 = '析') then
      match rest.drop (wsRunLen rest) with
      | p :: rest2 =>
        if isAnswerPunct p then some (2 + wsRunLen rest + 1 + wsRunLen rest2)
        else some (2 + wsRunLen rest)
      | [] => some (2 + wsRunLen rest)
    else none
  | _ => none

/-- Whether a (match) string ends in a newline — after removing a match,
`^` can hold again only if the match's last character was `'\n'`. -/
def lastIsNewline (l : Str) : Bool :=
  match l.getLast? with
  | some c => c = '\n'
  | none => false

/-- `re.sub(pattern, '', text)` for a `MULTILINE`-anchored pattern: scan
left to right; at the start of the text or right after a `'\n'`, test the
matcher and drop the matched span. Matches of these patterns are nonempty,
so the fuel (initialised to the text length) is never exhausted. -/
def subGo (m : Str → Option Nat) : Nat → Bool → Str → Str
  | _, _, [] => []
  | 0, _, cs => cs
  | fuel + 1, atStart, c :: rest =>
    if atStart then
      match m (c :: rest) with
      | some (k + 1) =>
        subGo m fuel (lastIsNewline (List.take (k + 1) (c :: rest)))
          (List.drop (k + 1) (c :: rest))
      | _ => c :: subGo m fuel (c = '\n') rest
    else c :: subGo m fuel (c = '\n') rest

def reSubLineStart (m : Str → Option Nat) (cs : Str) : Str :=
  subGo m cs.length true cs

/-- `QAParser._clean_answer_text`: apply the four `answer_start_patterns`
substitutions in order, then `lstrip('\n')`, then `strip()`. -/
def cleanAnswerText (text : Str) : Str :=
  pyStrip (lstripNewline (reSubLineStart matchAnswerJie (reSubLineStart
    matchAnswerBracket (reSubLineStart matchAnswerDa (reSubLineStart
      matchAnswerA text)))))

/-- After a removed match, `^` holds again only when the match ended with
a newline; with no newline in the remainder and the flag down, the
substitution leaves the text unchanged (for every fuel). -/
theorem subGo_no_newline (m : Str → Option Nat) :
    ∀ (fuel : Nat) (cs : Str), '\n' ∉ cs → subGo m fuel false cs = cs := by
  intro fuel
  induction fuel with
  | zero => intro cs _; cases cs <;> rfl
  | succ n ih =>
    intro cs hcs
    cases cs with
    | nil => rfl
    | cons c rest =>
      simp only [subGo, if_neg Bool.false_ne_true]
      have hc : c ≠ '\n' := fun h => hcs (h ▸ List.mem_cons_self c rest)
      have : (c = '\n' : Bool) = false := by
        simp [hc]
      rw [this, ih rest (fun h => hcs (List.mem_cons_of_mem c h))]

theorem pyStrip_eq_self (c : Char) (t : Str) (h1 : ¬ pyIsSpace c = true)
    (h2 : ¬ pyIsSpace ((c :: t).getLast (List.cons_ne_nil c t)) = true) :
    pyStrip (c :: t) = c :: t := by
  unfold pyStrip
  rw [List.dropWhile_cons_of_neg h1]
  have hrev : (c :: t).reverse.head? = some ((c :: t).getLast (List.cons_ne_nil c t)) := by
    rw [List.head?_reverse, List.getLast?_eq_getLast]
  cases hr : (c :: t).reverse with
  | nil => exact absurd hr (by simp)
  | cons d r =>
    rw [hr] at hrev
    simp only [List.head?_cons, Option.some.injEq] at hrev
    rw [List.dropWhile_cons_of_neg (hrev ▸ h2), ← hr, List.reverse_reverse]

theorem wsRunLen_cons_neg (c : Char) (t : Str) (h : ¬ pyIsSpace c = true) :
    wsRunLen (c :: t) = 0 := by
  simp [wsRunLen, List.takeWhile_cons_of_neg h]

theorem wsRunLen_nil : wsRunLen [] = 0 := rfl

theorem matchAnswerA_concrete (r : Char) (t : Str) (h : ¬ pyIsSpace r = true) :
    matchAnswerA ('A' :: ':' :: ' ' :: r :: t) = some 3 := by
  have h1 : wsRunLen (':' :: ' ' :: r :: t) = 0 :=
    wsRunLen_cons_neg _ _ (by decide)
  have h2 : wsRunLen (' ' :: r :: t) = 1 := by
    unfold wsRunLen
    rw [List.takeWhile_cons_of_pos (by decide), List.takeWhile_cons_of_neg h]
    rfl
  simp +decide [matchAnswerA, h1, h2]

theorem reSub_no_match_no_newline (m : Str → Option Nat) (cs : Str)
    (hm : ∀ k, m cs ≠ some (k + 1)) (hnl : '\n' ∉ cs) :
    reSubLineStart m cs = cs := by
  cases cs with
  | nil => rfl
  | cons c rest =>
    rw [reSubLineStart]
    have hl : (c :: rest).length = rest.length + 1 := by simp
    rw [hl]
    have hc : c ≠ '\n' := fun h => hnl (h ▸ List.mem_cons_self c rest)
    have hcb : (c = '\n' : Bool) = false := by simp [hc]
    have hrest := subGo_no_newline m rest.length rest
      (fun h => hnl (List.mem_cons_of_mem c h))
    cases hmv : m (c :: rest) with
    | none => simp [subGo, hmv, hcb, hrest]
    | some k =>
      cases k with
      | zero => simp [subGo, hmv, hcb, hrest]
      | succ k => exact absurd hmv (hm k)

theorem matchAnswerA_head_none (c : Char) (t : Str) (h1 : c ≠ 'A') (h2 : c ≠ 'a') :
    matchAnswerA (c :: t) = none := by
  simp [matchAnswerA, h1, h2]

theorem matchAnswerDa_head_none (c : Char) (t : Str) (h : c ≠ '答') :
    matchAnswerDa (c :: t) = none := by
  simp [matchAnswerDa, h]

theorem matchAnswerBracket_head_none (c : Char) (t : Str) (h : c ≠ '【') :
    matchAnswerBracket (c :: t) = none := by
  unfold matchAnswerBracket
  split <;> simp_all

theorem matchAnswerJie_head_none (c : Char) (t : Str) (h : c ≠ '解') :
    matchAnswerJie (c :: t) = none := by
  cases t with
  | nil => rfl
  | cons d r => simp [matchAnswerJie, h]

/-- C7 amended: `_clean_answer_text` strips *every* line-leading
answer-marker token, not only one leading token, and trims surrounding
whitespace: a leading `"A: "` is removed, and a text that starts with no
marker, contains no newline (hence no further line starts) and no
leading/trailing whitespace is returned unchanged. -/
theorem cleanAnswerText_amended (r : Char) (t : Str)
    (hnl : '\n' ∉ r :: t)
    (hr : ¬ pyIsSpace r = true)
    (hstart : r ≠ 'A' ∧ r ≠ 'a' ∧ r ≠ '答' ∧ r ≠ '【' ∧ r ≠ '解')
    (hlast : ¬ pyIsSpace ((r :: t).getLast (List.cons_ne_nil r t)) = true) :
    cleanAnswerText ('A' :: ':' :: ' ' :: r :: t) = r :: t ∧
    cleanAnswerText (r :: t) = r :: t := by
  obtain ⟨hA, ha, hDa, hBr, hJie⟩ := hstart
  have hsubs : ∀ cs : Str, cs = r :: t →
      reSubLineStart matchAnswerJie (reSubLineStart matchAnswerBracket
        (reSubLineStart matchAnswerDa cs)) = r :: t := by
    intro cs hcs
    subst hcs
    rw [reSub_no_match_no_newline matchAnswerDa _
        (by intro k hk; rw [matchAnswerDa_head_none r t hDa] at hk; cases hk) hnl,
      reSub_no_match_no_newline matchAnswerBracket _
        (by intro k hk; rw [matchAnswerBracket_head_none r t hBr] at hk; cases hk) hnl,
      reSub_no_match_no_newline matchAnswerJie _
        (by intro k hk; rw [matchAnswerJie_head_none r t hJie] at hk; cases hk)]
    exact hnl
  have hlstrip : lstripNewline (r :: t) = r :: t := by
    have hne : r ≠ '\n' := fun hh => hnl (hh ▸ List.mem_cons_self r t)
    unfold lstripNewline
    rw [List.dropWhile_cons_of_neg]
    simp [hne]
  have hstrip : pyStrip (r :: t) = r :: t := pyStrip_eq_self r t hr hlast
  constructor
  · have hstep1 : reSubLineStart matchAnswerA ('A' :: ':' :: ' ' :: r :: t) = r :: t := by
      rw [reSubLineStart]
      have hl : ('A' :: ':' :: ' ' :: r :: t).length = (t.length + 3) + 1 := by
        simp only [List.length_cons]
      rw [hl]
      simp only [subGo, matchAnswerA_concrete r t hr, if_true]
      have h3 : (3 : Nat) = 2 + 1 := rfl
      show subGo matchAnswerA (t.length + 3)
          (lastIsNewline (List.take 3 ('A' :: ':' :: ' ' :: r :: t)))
          (List.drop 3 ('A' :: ':' :: ' ' :: r :: t)) = r :: t
      have htake : lastIsNewline (List.take 3 ('A' :: ':' :: ' ' :: r :: t)) = false := rfl
      have hdrop : List.drop 3 ('A' :: ':' :: ' ' :: r :: t) = r :: t := rfl
      rw [htake, hdrop, subGo_no_newline _ _ _ hnl]
    rw [cleanAnswerText, hstep1, hsubs _ rfl, hlstrip, hstrip]
  · rw [cleanAnswerText,
      reSub_no_match_no_newline matchAnswerA _
        (by intro k hk; rw [matchAnswerA_head_none r t hA ha] at hk; cases hk) hnl,
      hsubs _ rfl, hlstrip, hstrip]

/-- C7 counterexample: `_clean_answer_text` does not leave the remainder
unchanged — the patterns are `MULTILINE`-anchored and `re.sub` removes
markers at the start of *every* line, so an interior `"A: "` is stripped
too. -/
theorem cleanAnswerText_counterexample :
    cleanAnswerText ("ok\nA: bar".toList) = "ok\nbar".toList ∧
    "ok\nbar".toList ≠ "ok\nA: bar".toList :=
  ⟨rfl, by decide⟩

/-- Witness for C7's amended theorem: `"A: bar"` loses its leading marker
and marker-free `"bar"` is returned unchanged. -/
theorem cleanAnswerText_amended_witness :
    cleanAnswerText ("A: bar".toList) = "bar".toList ∧
    cleanAnswerText ("bar".toList) = "bar".toList :=
  cleanAnswerText_amended 'b' ['a', 'r'] (by decide) (by decide)
    ⟨by decide, by decide, by decide, by decide, by decide⟩ (by decide)

/-! ## Chunker (`src/数据/src/parsers/chunker.py`) -/

/-- Python `a or b` on optional strings (`None` and `""` are falsy). -/
def pyOr (a b : Option Str) : Option Str :=
  match a with
  | some s => if s = [] then b else some s
  | none => b

/-- `f"{prefix}_{counter:06d}"` (`Chunker._generate_chunk_id` uses the
counter value after incrementing). -/
def genChunkId (pfx : Str) (counter : Nat) : Str :=
  pfx ++ ['_'] ++ (List.replicate (6 - (Nat.toDigits 10 counter).length) '0' ++
    Nat.toDigits 10 counter)

/-- The sentence-terminator class `[。！？.!?]` of `_get_overlap_text`. -/
def isSentTerm (c : Char) : Bool :=
  c = '。' || c = '！' || c = '？' || c = '.' || c = '!' || c = '?'

/-- The terminator class `'。！？.!?\n'` of `_force_split` (note it also
contains the newline). -/
def isForceTerm (c : Char) : Bool :=
  isSentTerm c || c = '\n'

/-- `re.split(r'[。！？.!?]', text)`: split at every single terminator. -/
def splitSentences : Str → List Str
  | [] => [[]]
  | c :: rest =>
    if isSentTerm c then [] :: splitSentences rest
    else
      match splitSentences rest with
      | [] => [[c]]
      | p :: ps => (c :: p) :: ps

/-- The accumulation loop of `_get_overlap_text` over the reversed
sentence list (`overlap = sent + "。" + overlap` while it fits, else
break). -/
def overlapAccum (ov : Nat) : List Str → Str → Str
  | [], acc => acc
  | sent :: rest, acc =>
    if acc.length + sent.length ≤ ov then
      overlapAccum ov rest (sent ++ ['。'] ++ acc)
    else acc

/-- `Chunker._get_overlap_text`. -/
def getOverlapText (cfg : ChunkerConfig) (parts : List Str) : Str :=
  match parts.getLast? with
  | none => []
  | some last_part =>
    if last_part.length ≤ cfg.overlap_size then last_part
    else
      let overlap := overlapAccum cfg.overlap_size
        (splitSentences last_part).reverse []
      if pyStrip overlap ≠ [] then pyStrip overlap
      else pyTakeLast last_part cfg.overlap_size

/-- Backward scan of `_force_split`: the first index `i` in
`hi, hi-1, …, lo+1` whose character is a terminator. -/
def findTermBackAux (text : Str) (lo : Nat) : Nat → Option Nat
  | 0 => none
  | k + 1 =>
    match text.get? (lo + k + 1) with
    | some c =>
      if isForceTerm c then some (lo + k + 1) else findTermBackAux text lo k
    | none => findTermBackAux text lo k

def findTermBack (text : Str) (hi lo : Nat) : Option Nat :=
  findTermBackAux text lo (hi - lo)

/-- `Chunker._force_split` main loop. The source's `while start <
len(text)` advances by `end - overlap`; the fuel (one step per emitted
chunk, initialised to the text length) is exhausted only for
configurations (`overlap_size` at least about `max_chunk_size / 2`) on
which the source loop itself never terminates. Indices are `Nat`; the
source's `start` stays non-negative for such sane configurations. -/
def forceSplitLoop (cfg : ChunkerConfig) (text : Str) (sf : Option Str)
    (pn : Option Nat) : Nat → Nat → Nat → List Chunk × Nat
  | 0, _, counter => ([], counter)
  | fuel + 1, start, counter =>
    if start < text.length then
      let end0 := start + cfg.max_chunk_size
      let end1 :=
        if end0 < text.length then
          match findTermBack text end0 (max (start + cfg.max_chunk_size / 2) start) with
          | some i => i + 1
          | none => end0
        else end0
      let chunk : Chunk :=
        { chunk_id := genChunkId "text".toList (counter + 1),
          content := pyStrip (pySlice text start end1),
          chunk_type := "text".toList, source_file := sf, page_num := pn,
          metadata := [("force_split".toList, MetaVal.b true)] }
      let nextStart := if end1 < text.length then end1 - cfg.overlap_size else end1
      let r := forceSplitLoop cfg text sf pn fuel nextStart (counter + 1)
      (chunk :: r.1, r.2)
    else ([], counter)

def forceSplit (cfg : ChunkerConfig) (counter : Nat) (text : Str)
    (sf : Option Str) (pn : Option Nat) : List Chunk × Nat :=
  forceSplitLoop cfg text sf pn (text.length + 1) 0 counter

/-- The paragraph loop of `Chunker.chunk_plain_text`; returns the emitted
chunks, the pending `current_content` and the counter. -/
def chunkPlainLoop (cfg : ChunkerConfig) (sf : Option Str) (pn : Option Nat) :
    List Str → Str → Nat → List Chunk × Str × Nat
  | [], current, counter => ([], current, counter)
  | para0 :: rest, current, counter =>
    let para := pyStrip para0
    if para = [] then chunkPlainLoop cfg sf pn rest current counter
    else if current.length + para.length > cfg.max_chunk_size then
      if current ≠ [] then
        let chunk : Chunk :=
          { chunk_id := genChunkId "text".toList (counter + 1),
            content := pyStrip current, chunk_type := "text".toList,
            source_file := sf, page_num := pn }
        let overlap :=
          if current.length > cfg.overlap_size then
            pyTakeLast current cfg.overlap_size
          else []
        let r := chunkPlainLoop cfg sf pn rest
          (overlap ++ ['\n', '\n'] ++ para ++ ['\n', '\n']) (counter + 1)
        (chunk :: r.1, r.2)
      else
        let sub := forceSplit cfg counter para sf pn
        let r := chunkPlainLoop cfg sf pn rest [] sub.2
        (sub.1 ++ r.1, r.2)
    else chunkPlainLoop cfg sf pn rest (current ++ para ++ ['\n', '\n']) counter

/-- `Chunker.chunk_plain_text`. -/
def chunkPlainText (cfg : ChunkerConfig) (counter : Nat) (text : Str)
    (sf : Option Str) (pn : Option Nat) : List Chunk × Nat :=
  if pyStrip text = [] then ([], counter)
  else
    let r := chunkPlainLoop cfg sf pn (splitBlank text) [] counter
    if pyStrip r.2.1 ≠ [] then
      (r.1 ++ [{ chunk_id := genChunkId "text".toList (r.2.2 + 1),
                 content := pyStrip r.2.1, chunk_type := "text".toList,
                 source_file := sf, page_num := pn }], r.2.2 + 1)
    else (r.1, r.2.2)

/-- The paragraph loop of `Chunker._split_long_qa`; the state carries the
emitted chunks, `current_content`, `current_answer_parts`, the counter
and the number of chunks emitted so far (for the `part` metadata). -/
def splitLongQALoop (cfg : ChunkerConfig) (q : Str) (qa : QAPair)
    (sf : Option Str) :
    List Str → Str → List Str → Nat → Nat →
      List Chunk × Str × List Str × Nat × Nat
  | [], current, parts, counter, n => ([], current, parts, counter, n)
  | para0 :: rest, current, parts, counter, n =>
    let para := pyStrip para0
    if para = [] then splitLongQALoop cfg q qa sf rest current parts counter n
    else if (current ++ para).length > cfg.max_chunk_size ∧ parts ≠ [] then
      let chunk : Chunk :=
        { chunk_id := genChunkId "qa".toList (counter + 1),
          content := pyStrip current, question := some q,
          answer := some (joinSep ['\n', '\n'] parts),
          chunk_type := "qa".toList, source_file := pyOr sf qa.source_file,
          page_num := qa.page_num, question_num := qa.question_num,
          metadata := [("is_split".toList, MetaVal.b true),
                       ("part".toList, MetaVal.n (n + 1))] }
      let overlap := getOverlapText cfg parts
      let r := splitLongQALoop cfg q qa sf rest
        (q ++ ("\n\n（续）\n\n".toList) ++ overlap ++ para ++ ['\n', '\n'])
        [para] (counter + 1) (n + 1)
      (chunk :: r.1, r.2)
    else
      splitLongQALoop cfg q qa sf rest (current ++ para ++ ['\n', '\n'])
        (parts ++ [para]) counter n

/-- `Chunker._split_long_qa`. -/
def splitLongQA (cfg : ChunkerConfig) (counter : Nat) (qa : QAPair)
    (sf : Option Str) : List Chunk × Nat :=
  let q := qa.question
  let r := splitLongQALoop cfg q qa sf (splitBlank qa.answer)
    (q ++ ['\n', '\n']) [] counter 0
  let parts := r.2.2.1
  let n := r.2.2.2.2
  if parts ≠ [] then
    (r.1 ++ [{ chunk_id := genChunkId "qa".toList (r.2.2.2.1 + 1),
               content := pyStrip r.2.1, question := some q,
               answer := some (joinSep ['\n', '\n'] parts),
               chunk_type := "qa".toList, source_file := pyOr sf qa.source_file,
               page_num := qa.page_num, question_num := qa.question_num,
               metadata := [("is_split".toList, MetaVal.b (decide (n > 0))),
                            ("part".toList,
                             if n > 0 then MetaVal.n (n + 1) else MetaVal.null)] }],
     r.2.2.2.1 + 1)
  else (r.1, r.2.2.2.1)

/-- `Chunker.chunk_qa_pairs`. -/
def chunkQaPairs (cfg : ChunkerConfig) (counter : Nat) (qa_pairs : List QAPair)
    (sf : Option Str) : List Chunk × Nat :=
  match qa_pairs with
  | [] => ([], counter)
  | qa :: rest =>
    if qa.char_count > cfg.max_chunk_size then
      let sub := splitLongQA cfg counter qa sf
      let r := chunkQaPairs cfg sub.2 rest sf
      (sub.1 ++ r.1, r.2)
    else
      let chunk : Chunk :=
        { chunk_id := genChunkId "qa".toList (counter + 1),
          content := qa.full_text, question := some qa.question,
          answer := some qa.answer, chunk_type := "qa".toList,
          source_file := pyOr sf qa.source_file, page_num := qa.page_num,
          question_num := qa.question_num }
      let r := chunkQaPairs cfg (counter + 1) rest sf
      (chunk :: r.1, r.2)

/-- Python `str.splitlines()` restricted to `'\n'` separators (the only
line terminator present after the pipeline's extractors normalise text). -/
def splitLinesNL : Str → List Str
  | [] => []
  | c :: rest =>
    if c = '\n' then [] :: splitLinesNL rest
    else
      match splitLinesNL rest with
      | [] => [[c]]
      | p :: ps => (c :: p) :: ps

/-- Python truthiness of an optional string (`None` and `""` are falsy). -/
def optTruthy (o : Option Str) : Bool :=
  match o with
  | some s => s ≠ []
  | none => false

/-- The section-building loop of `Chunker.chunk_markdown`: heading lines
(stripped line starting with `#`) close the current section and open a
new one titled by the stripped heading line. -/
def mdSections : List Str → Option Str → List Str → List (Option Str × Str)
  | [], title, cur =>
    if cur ≠ [] then [(title, pyStrip (joinSep ['\n'] cur))] else []
  | line :: rest, title, cur =>
    if (pyStrip line).head? = some '#' then
      (if cur ≠ [] then [(title, pyStrip (joinSep ['\n'] cur))] else []) ++
        mdSections rest (some (pyStrip line)) []
    else mdSections rest title (cur ++ [line])

/-- Tag a force-split sub-chunk with its owning heading (only when the
title is truthy, as in the source's `if title:`). -/
def mdAnnotate (title : Option Str) (c : Chunk) : Chunk :=
  if optTruthy title then
    { c with metadata := c.metadata ++
        [("md_title".toList, MetaVal.s (title.getD [])),
         ("md_section".toList, MetaVal.b true)] }
  else c

/-- `section_text = (title + "\n\n" + body).strip() if title else
body.strip()`. -/
def mdSectionText (title : Option Str) (body : Str) : Str :=
  if optTruthy title then pyStrip ((title.getD []) ++ ['\n', '\n'] ++ body)
  else pyStrip body

/-- The per-section loop of `Chunker.chunk_markdown`. -/
def mdLoop (cfg : ChunkerConfig) (sf : Option Str) (pn : Option Nat) :
    List (Option Str × Str) → Nat → List Chunk × Nat
  | [], counter => ([], counter)
  | (title, body) :: rest, counter =>
    let section_text := mdSectionText title body
    if section_text = [] then mdLoop cfg sf pn rest counter
    else if section_text.length > cfg.max_chunk_size then
      let sub := forceSplit cfg counter section_text sf pn
      let r := mdLoop cfg sf pn rest sub.2
      (sub.1.map (mdAnnotate title) ++ r.1, r.2)
    else
      let chunk : Chunk :=
        { chunk_id := genChunkId "md".toList (counter + 1),
          content := section_text, chunk_type := "text".toList,
          source_file := sf, page_num := pn,
          metadata :=
            if optTruthy title then
              [("md_title".toList, MetaVal.s (title.getD []))]
            else [] }
      let r := mdLoop cfg sf pn rest (counter + 1)
      (chunk :: r.1, r.2)

/-- `Chunker.chunk_markdown`. -/
def chunkMarkdown (cfg : ChunkerConfig) (counter : Nat) (text : Str)
    (sf : Option Str) (pn : Option Nat) : List Chunk × Nat :=
  if pyStrip text = [] then ([], counter)
  else
    let sections := mdSections (splitLinesNL text) none []
    if sections.length = 1 ∧ ¬ optTruthy (sections.headI.1) then
      chunkPlainText cfg counter text sf pn
    else mdLoop cfg sf pn sections counter

theorem pyStrip_length_le (cs : Str) : (pyStrip cs).length ≤ cs.length := by
  unfold pyStrip
  calc ((cs.dropWhile pyIsSpace).reverse.dropWhile pyIsSpace).reverse.length
      = ((cs.dropWhile pyIsSpace).reverse.dropWhile pyIsSpace).length := by
        rw [List.length_reverse]
    _ ≤ (cs.dropWhile pyIsSpace).reverse.length := dropWhile_length_le _ _
    _ = (cs.dropWhile pyIsSpace).length := by rw [List.length_reverse]
    _ ≤ cs.length := dropWhile_length_le _ _

theorem pyTakeLast_length_le (cs : Str) (k : Nat) :
    (pyTakeLast cs k).length ≤ k := by
  unfold pyTakeLast
  rw [List.length_drop]
  omega

theorem pyStrip_append_newlines_length (u : Str) :
    (pyStrip (u ++ ['\n', '\n'])).length ≤ u.length := by
  unfold pyStrip
  rw [List.dropWhile_append]
  cases h : (u.dropWhile pyIsSpace).isEmpty with
  | true =>
    simp only [if_true]
    have : List.dropWhile pyIsSpace ['\n', '\n'] = [] := by decide
    simp [this]
  | false =>
    simp only [Bool.false_eq_true, if_false]
    rw [List.reverse_append]
    have hrev : (['\n', '\n'] : Str).reverse = ['\n', '\n'] := by decide
    rw [hrev]
    show (List.dropWhile pyIsSpace
      ('\n' :: '\n' :: (u.dropWhile pyIsSpace).reverse)).reverse.length ≤ u.length
    rw [List.dropWhile_cons_of_pos (by decide), List.dropWhile_cons_of_pos (by decide)]
    calc (List.dropWhile pyIsSpace (u.dropWhile pyIsSpace).reverse).reverse.length
        = (List.dropWhile pyIsSpace (u.dropWhile pyIsSpace).reverse).length := by
          rw [List.length_reverse]
      _ ≤ (u.dropWhile pyIsSpace).reverse.length := dropWhile_length_le _ _
      _ = (u.dropWhile pyIsSpace).length := by rw [List.length_reverse]
      _ ≤ u.length := dropWhile_length_le _ _

theorem pySlice_length_le (cs : Str) (a b : Nat) :
    (pySlice cs a b).length ≤ b - a := by
  unfold pySlice
  rw [List.length_take]
  omega

theorem findTermBackAux_le (text : Str) (lo : Nat) :
    ∀ k i, findTermBackAux text lo k = some i → i ≤ lo + k := by
  intro k
  induction k with
  | zero => intro i h; cases h
  | succ k ih =>
    intro i h
    unfold findTermBackAux at h
    cases hg : text.get? (lo + k + 1) with
    | none =>
      simp only [hg] at h
      exact Nat.le_trans (ih i h) (by omega)
    | some c =>
      simp only [hg] at h
      by_cases ht : isForceTerm c = true
      · rw [if_pos ht] at h
        injection h with h
        omega
      · rw [if_neg ht] at h
        exact Nat.le_trans (ih i h) (by omega)

theorem findTermBack_le (text : Str) (hi lo i : Nat)
    (h : findTermBack text hi lo = some i) : i ≤ hi := by
  unfold findTermBack at h
  cases hk : hi - lo with
  | zero => rw [hk] at h; cases h
  | succ k =>
    rw [hk] at h
    have := findTermBackAux_le text lo (k + 1) i h
    omega

theorem forceSplit_end_bound (cfg : ChunkerConfig) (text : Str) (start : Nat) :
    (if start + cfg.max_chunk_size < text.length then
        match findTermBack text (start + cfg.max_chunk_size)
            (max (start + cfg.max_chunk_size / 2) start) with
        | some i => i + 1
        | none => start + cfg.max_chunk_size
      else start + cfg.max_chunk_size) ≤ start + cfg.max_chunk_size + 1 := by
  by_cases hl : start + cfg.max_chunk_size < text.length
  · rw [if_pos hl]
    cases hft : findTermBack text (start + cfg.max_chunk_size)
        (max (start + cfg.max_chunk_size / 2) start) with
    | none => show start + cfg.max_chunk_size ≤ start + cfg.max_chunk_size + 1; omega
    | some i =>
      show i + 1 ≤ start + cfg.max_chunk_size + 1
      have := findTermBack_le text _ _ _ hft
      omega
  · rw [if_neg hl]
    omega

theorem forceSplitLoop_bound (cfg : ChunkerConfig) (text : Str)
    (sf : Option Str) (pn : Option Nat) :
    ∀ (fuel start counter : Nat),
    ∀ c ∈ (forceSplitLoop cfg text sf pn fuel start counter).1,
      c.content.length ≤ cfg.max_chunk_size + 1 := by
  intro fuel
  induction fuel with
  | zero => intro start counter c hc; cases hc
  | succ fuel ih =>
    intro start counter c hc
    by_cases hs : start < text.length
    · simp only [forceSplitLoop, if_pos hs] at hc
      rcases List.mem_cons.1 hc with hc | hc
      · subst hc
        have hend := forceSplit_end_bound cfg text start
        calc (pyStrip (pySlice text start _)).length
            ≤ (pySlice text start _).length := pyStrip_length_le _
          _ ≤ _ - start := pySlice_length_le _ _ _
          _ ≤ cfg.max_chunk_size + 1 := by omega
      · exact ih _ _ c hc
    · simp only [forceSplitLoop, if_neg hs] at hc
      cases hc

theorem chunkPlainLoop_bound (cfg : ChunkerConfig) (sf : Option Str)
    (pn : Option Nat) (hov : 1 ≤ cfg.overlap_size) :
    ∀ (paras : List Str) (current : Str) (counter : Nat),
    (∀ p ∈ paras, (pyStrip p).length + 2 ≤ cfg.max_chunk_size) →
    (current = [] ∨ ((∃ u, current = u ++ ['\n', '\n']) ∧
      current.length ≤ cfg.max_chunk_size + cfg.overlap_size + 2)) →
    (∀ c ∈ (chunkPlainLoop cfg sf pn paras current counter).1,
      c.content.length ≤ cfg.max_chunk_size + cfg.overlap_size) ∧
    ((chunkPlainLoop cfg sf pn paras current counter).2.1 = [] ∨
      ((∃ u, (chunkPlainLoop cfg sf pn paras current counter).2.1 =
          u ++ ['\n', '\n']) ∧
        (chunkPlainLoop cfg sf pn paras current counter).2.1.length ≤
          cfg.max_chunk_size + cfg.overlap_size + 2)) := by
  intro paras
  induction paras with
  | nil =>
    intro current counter _ hcur
    refine ⟨fun c hc => ?_, hcur⟩
    cases hc
  | cons p rest ih =>
    intro current counter hps hcur
    have hp : (pyStrip p).length + 2 ≤ cfg.max_chunk_size :=
      hps p (List.mem_cons_self _ _)
    have hrest : ∀ q ∈ rest, (pyStrip q).length + 2 ≤ cfg.max_chunk_size :=
      fun q hq => hps q (List.mem_cons_of_mem _ hq)
    by_cases hpe : pyStrip p = []
    · simp only [chunkPlainLoop, if_pos hpe]
      exact ih current counter hrest hcur
    · by_cases hover : current.length + (pyStrip p).length > cfg.max_chunk_size
      · by_cases hne : current = []
        · subst hne
          simp only [chunkPlainLoop, if_neg hpe, if_pos hover, if_neg (fun h : ([] : Str) ≠ [] => h rfl)]
          have hsub := forceSplitLoop_bound cfg (pyStrip p) sf pn
            ((pyStrip p).length + 1) 0 counter
          have hr := ih []
            (forceSplit cfg counter (pyStrip p) sf pn).2 hrest (Or.inl rfl)
          constructor
          · intro c hc
            rcases List.mem_append.1 hc with hc | hc
            · exact Nat.le_trans (hsub c hc) (by omega)
            · exact hr.1 c hc
          · exact hr.2
        · simp only [chunkPlainLoop, if_neg hpe, if_pos hover, if_pos hne]
          rcases hcur with rfl | ⟨⟨u, hu⟩, hlen⟩
          · exact absurd rfl hne
          have hulen : u.length + 2 = current.length := by
            rw [hu]; simp
          have hchunk : (pyStrip current).length ≤
              cfg.max_chunk_size + cfg.overlap_size := by
            rw [hu]
            have := pyStrip_append_newlines_length u
            omega
          have hovl : (if current.length > cfg.overlap_size then
              pyTakeLast current cfg.overlap_size else []).length ≤
              cfg.overlap_size := by
            split
            · exact pyTakeLast_length_le _ _
            · simp
          have hnew : ((if current.length > cfg.overlap_size then
              pyTakeLast current cfg.overlap_size else []) ++ ['\n', '\n'] ++
                pyStrip p ++ ['\n', '\n']) = (((if current.length > cfg.overlap_size then
              pyTakeLast current cfg.overlap_size else []) ++ ['\n', '\n'] ++
                pyStrip p) ++ ['\n', '\n']) := by
            simp [List.append_assoc]
          have hr := ih _ (counter + 1) hrest (Or.inr ⟨⟨_, hnew⟩, by
            simp only [List.length_append, List.length_cons, List.length_nil]
            omega⟩)
          constructor
          · intro c hc
            rcases List.mem_cons.1 hc with hc | hc
            · subst hc
              exact hchunk
            · exact hr.1 c hc
          · exact hr.2
      · simp only [chunkPlainLoop, if_neg hpe, if_neg hover]
        have hacc : current ++ pyStrip p ++ ['\n', '\n'] =
            (current ++ pyStrip p) ++ ['\n', '\n'] := by
          simp [List.append_assoc]
        exact ih _ counter hrest (Or.inr ⟨⟨_, hacc⟩, by
          simp only [List.length_append, List.length_cons, List.length_nil]
          omega⟩)

theorem pyStrip_newlines_suffix_bound (cur : Str) (u : Str)
    (hu : cur = u ++ ['\n', '\n']) (B : Nat) (hlen : cur.length ≤ B + 2) :
    (pyStrip cur).length ≤ B := by
  rw [hu]
  have h1 := pyStrip_append_newlines_length u
  have h2 : u.length + 2 = cur.length := by rw [hu]; simp
  omega

theorem chunkPlainText_bound (cfg : ChunkerConfig) (counter : Nat) (text : Str)
    (sf : Option Str) (pn : Option Nat) (hov : 1 ≤ cfg.overlap_size)
    (hps : ∀ p ∈ splitBlank text, (pyStrip p).length + 2 ≤ cfg.max_chunk_size) :
    ∀ c ∈ (chunkPlainText cfg counter text sf pn).1,
      c.content.length ≤ cfg.max_chunk_size + cfg.overlap_size := by
  intro c hc
  have h := chunkPlainLoop_bound cfg sf pn hov (splitBlank text) [] counter hps
    (Or.inl rfl)
  simp only [chunkPlainText] at hc
  by_cases ht : pyStrip text = []
  · rw [if_pos ht] at hc
    cases hc
  · rw [if_neg ht] at hc
    by_cases hf : pyStrip
        (chunkPlainLoop cfg sf pn (splitBlank text) [] counter).2.1 ≠ []
    · rw [if_pos hf] at hc
      rcases List.mem_append.1 hc with hc | hc
      · exact h.1 c hc
      · rcases List.mem_singleton.1 hc with rfl
        rcases h.2 with he | ⟨⟨u, hu⟩, hlen⟩
        · rw [he] at hf
          exact absurd rfl hf
        · exact pyStrip_newlines_suffix_bound _ u hu _ hlen
    · rw [if_neg hf] at hc
      exact h.1 c hc

theorem mdAnnotate_content (t : Option Str) (c : Chunk) :
    (mdAnnotate t c).content = c.content := by
  unfold mdAnnotate
  split <;> rfl

theorem mdLoop_bound (cfg : ChunkerConfig) (sf : Option Str) (pn : Option Nat)
    (hov : 1 ≤ cfg.overlap_size) :
    ∀ (sections : List (Option Str × Str)) (counter : Nat),
    ∀ c ∈ (mdLoop cfg sf pn sections counter).1,
      c.content.length ≤ cfg.max_chunk_size + cfg.overlap_size := by
  intro sections
  induction sections with
  | nil => intro counter c hc; cases hc
  | cons s rest ih =>
    intro counter c hc
    obtain ⟨title, body⟩ := s
    simp only [mdLoop] at hc
    by_cases hse : mdSectionText title body = []
    · rw [if_pos hse] at hc
      exact ih _ c hc
    · rw [if_neg hse] at hc
      by_cases hgt : (mdSectionText title body).length > cfg.max_chunk_size
      · rw [if_pos hgt] at hc
        rcases List.mem_append.1 hc with hc | hc
        · rcases List.mem_map.1 hc with ⟨c0, hc0, rfl⟩
          rw [mdAnnotate_content]
          exact Nat.le_trans
            (forceSplitLoop_bound cfg _ sf pn _ _ _ c0 hc0) (by omega)
        · exact ih _ c hc
      · rw [if_neg hgt] at hc
        rcases List.mem_cons.1 hc with rfl | hc
        · show (mdSectionText title body).length ≤ _
          omega
        · exact ih _ c hc

theorem chunkMarkdown_bound (cfg : ChunkerConfig) (counter : Nat) (text : Str)
    (sf : Option Str) (pn : Option Nat) (hov : 1 ≤ cfg.overlap_size)
    (hps : ∀ p ∈ splitBlank text, (pyStrip p).length + 2 ≤ cfg.max_chunk_size) :
    ∀ c ∈ (chunkMarkdown cfg counter text sf pn).1,
      c.content.length ≤ cfg.max_chunk_size + cfg.overlap_size := by
  intro c hc
  simp only [chunkMarkdown] at hc
  split at hc
  · cases hc
  · split at hc
    · exact chunkPlainText_bound cfg counter text sf pn hov hps c hc
    · exact mdLoop_bound cfg sf pn hov _ counter c hc

theorem chunkQaPairs_fit (cfg : ChunkerConfig) :
    ∀ (pairs : List QAPair) (counter : Nat) (sf : Option Str),
    (∀ qa ∈ pairs, qa.char_count ≤ cfg.max_chunk_size) →
    ∀ c ∈ (chunkQaPairs cfg counter pairs sf).1,
      c.content.length ≤ cfg.max_chunk_size := by
  intro pairs
  induction pairs with
  | nil => intro counter sf _ c hc; cases hc
  | cons qa rest ih =>
    intro counter sf hall c hc
    have hqa := hall qa (List.mem_cons_self _ _)
    simp only [chunkQaPairs, if_neg (by omega : ¬ qa.char_count > cfg.max_chunk_size)]
      at hc
    rcases List.mem_cons.1 hc with rfl | hc
    · exact hqa
    · exact ih _ sf (fun q hq => hall q (List.mem_cons_of_mem _ hq)) c hc

/-- C1 amended: every chunk's `char_count` equals the length of its
content (it is a recomputed property). The size bound
`max_chunk_size + overlap_size` fails in general (see the counterexample)
but holds: for `chunk_plain_text` and `chunk_markdown` whenever
`overlap_size ≥ 1` and every blank-line-delimited paragraph of the text,
after trimming, is at most `max_chunk_size - 2` long; and for
`chunk_qa_pairs` (with the stronger bound `max_chunk_size`) whenever every
pair fits, i.e. has `char_count ≤ max_chunk_size`. -/
theorem chunker_char_count_and_size_bound :
    (∀ c : Chunk, c.char_count = c.content.length) ∧
    (∀ (cfg : ChunkerConfig) (counter : Nat) (text : Str) (sf : Option Str)
        (pn : Option Nat),
      1 ≤ cfg.overlap_size →
      (∀ p ∈ splitBlank text, (pyStrip p).length + 2 ≤ cfg.max_chunk_size) →
      (∀ c ∈ (chunkPlainText cfg counter text sf pn).1,
        c.content.length ≤ cfg.max_chunk_size + cfg.overlap_size) ∧
      (∀ c ∈ (chunkMarkdown cfg counter text sf pn).1,
        c.content.length ≤ cfg.max_chunk_size + cfg.overlap_size)) ∧
    (∀ (cfg : ChunkerConfig) (counter : Nat) (pairs : List QAPair)
        (sf : Option Str),
      (∀ qa ∈ pairs, qa.char_count ≤ cfg.max_chunk_size) →
      ∀ c ∈ (chunkQaPairs cfg counter pairs sf).1,
        c.content.length ≤ cfg.max_chunk_size) :=
  ⟨fun _ => rfl,
   fun cfg counter text sf pn hov hps =>
     ⟨chunkPlainText_bound cfg counter text sf pn hov hps,
      chunkMarkdown_bound cfg counter text sf pn hov hps⟩,
   fun cfg counter pairs sf hall => chunkQaPairs_fit cfg pairs counter sf hall⟩

/-- Witness for C1's amended theorem at a two-paragraph text and the
10/2/3 configuration. -/
theorem chunker_bound_witness :
    ((1:Nat) ≤ 3 ∧
      (∀ p ∈ splitBlank ("ab\n\ncd".toList), (pyStrip p).length + 2 ≤ 10)) ∧
    (∀ c ∈ (chunkPlainText ⟨10, 2, 3⟩ 0 ("ab\n\ncd".toList) none none).1,
      c.content.length ≤ 13) :=
  ⟨⟨by decide, by decide⟩,
   fun c hc =>
     (chunker_char_count_and_size_bound.2.1 ⟨10, 2, 3⟩ 0 ("ab\n\ncd".toList)
       none none (by decide) (by decide)).1 c hc⟩

/-- C1 counterexample: with `max_chunk_size = 10`, `overlap_size = 3`, the
text `"bb\n\n" + "a"*20` makes `chunk_plain_text` emit a chunk of 25
characters — a single paragraph longer than the limit is carried into
`current_content` unsplit (the force-split branch only fires when
`current_content` is empty), so the claimed `max_chunk_size +
overlap_size` bound fails. -/
theorem chunkPlainText_bound_counterexample :
    ((chunkPlainText ⟨10, 2, 3⟩ 0 ("bb\n\naaaaaaaaaaaaaaaaaaaa".toList)
      none none).1.map (fun c => c.content.length)) = [2, 25] ∧
    10 + 3 < 25 :=
  ⟨rfl, by decide⟩

/-! ## `QAParser.parse` (`src/数据/src/parsers/qa_parser.py`) -/

/-- `text.replace('\r\n', '\n')`. -/
def replaceCRLF : Str → Str
  | [] => []
  | '\r' :: '\n' :: rest => '\n' :: replaceCRLF rest
  | c :: rest => c :: replaceCRLF rest

/-- `re.sub(r'\n{3,}', '\n\n', ·)`: runs of three or more newlines
collapse to two (fuel-structural; one character consumed per step). -/
def collapseNLAux : Nat → Str → Str
  | _, [] => []
  | 0, cs => cs
  | fuel + 1, c :: rest =>
    if c = '\n' then
      if 1 + (rest.takeWhile (fun x => x = '\n')).length ≥ 3 then
        '\n' :: '\n' :: collapseNLAux fuel (rest.dropWhile (fun x => x = '\n'))
      else c :: collapseNLAux fuel rest
    else c :: collapseNLAux fuel rest

/-- `QAParser._normalize_text`: normalise line endings, collapse blank-line
runs, strip. -/
def qaNormalizeText (text : Str) : Str :=
  pyStrip (collapseNLAux
    ((replaceCRLF text).map (fun c => if c = '\r' then '\n' else c)).length
    ((replaceCRLF text).map (fun c => if c = '\r' then '\n' else c)))

/-- One regex match of the nine `question_patterns`, abstracted to the
data the parser reads off it: the span `[mstart, mend)` of `group(0)`,
the numbering group (`groups[0]`, possibly empty) and the question-text
group (`groups[1]`, or `groups[0]` for one-group patterns) used by the
step-marker filter. The regex engines themselves are not embedded; the
theorems quantify over every match list whose spans satisfy the facts
`re.finditer` guarantees (`start ≤ end ≤ len(text)`). -/
structure QMarker where
  mstart : Nat
  mend : Nat
  numStr : Str := []
  qtext : Str := []
deriving DecidableEq, Repr

/-- `int(num_str) if num_str and num_str.isdigit() else None`. -/
def digitsToNat (s : Str) : Nat :=
  s.foldl (fun a c => a * 10 + (c.toNat - 48)) 0

def markerNum (m : QMarker) : Option Nat :=
  if m.numStr ≠ [] ∧ m.numStr.all isAsciiDigit then some (digitsToNat m.numStr)
  else none

/-- Characters of the `[一-十\d]` class of `step_marker_pattern`. -/
def isCnNumChar (c : Char) : Bool :=
  (0x4E00 ≤ c.toNat && c.toNat ≤ 0x5341) || isAsciiDigit c

/-- `step_marker_pattern.match(question_text)`:
`^(第[一-十\d]+步|步骤\s*[一-十\d]+|step\s*\d+)`, case-insensitive. -/
def isStepMarker (cs : Str) : Bool :=
  (match cs with
   | '第' :: rest =>
     (rest.takeWhile isCnNumChar) ≠ [] &&
       (rest.dropWhile isCnNumChar).head? = some '步'
   | _ => false) ||
  (match cs with
   | '步' :: '骤' :: rest =>
     match ((rest.dropWhile pyIsSpace).head?) with
     | some d => isCnNumChar d
     | none => false
   | _ => false) ||
  (match cs.map toLowerChar with
   | 's' :: 't' :: 'e' :: 'p' :: rest =>
     match ((rest.dropWhile pyIsSpace).head?) with
     | some d => isAsciiDigit d
     | none => false
   | _ => false)

/-- Stable insertion sort by `mstart` (`question_positions.sort(key=...)`). -/
def insertByStart (m : QMarker) : List QMarker → List QMarker
  | [] => [m]
  | x :: rest =>
    if m.mstart < x.mstart then m :: x :: rest else x :: insertByStart m rest

def sortByStart : List QMarker → List QMarker
  | [] => []
  | m :: rest => insertByStart m (sortByStart rest)

/-- The earliest-match-wins overlap resolution (`unique_positions` with
`last_end`, initialised to `-1`). -/
def dedupPositions (lastEnd : Int) : List QMarker → List QMarker
  | [] => []
  | m :: rest =>
    if (m.mstart : Int) ≥ lastEnd then m :: dedupPositions (m.mend : Int) rest
    else dedupPositions lastEnd rest

def mkPairFromMarker (text : Str) (m : QMarker) (aend : Nat)
    (answer : Str) : QAPair :=
  { question := pyStrip (pySlice text m.mstart m.mend), answer := answer,
    question_num := markerNum m, start_pos := m.mstart, end_pos := aend }

/-- Pair extraction of `_parse_by_question_markers`: the answer runs from
the marker's end to the next marker's start (or end of text), is stripped
and cleaned, and empty answers drop the pair. -/
def buildPairs (text : Str) : List QMarker → List QAPair
  | [] => []
  | [m] =>
    let a := cleanAnswerText (pyStrip (pySlice text m.mend text.length))
    if a ≠ [] then [mkPairFromMarker text m text.length a] else []
  | m :: m2 :: rest =>
    let a := cleanAnswerText (pyStrip (pySlice text m.mend m2.mstart))
    (if a ≠ [] then [mkPairFromMarker text m m2.mstart a] else []) ++
      buildPairs text (m2 :: rest)

/-- `QAParser._parse_by_question_markers`, over an abstract match list. -/
def parseByQuestionMarkers (qmatches : List QMarker) (text : Str) :
    List QAPair :=
  let filtered := qmatches.filter (fun m => ! isStepMarker m.qtext)
  if filtered = [] then []
  else buildPairs text (dedupPositions (-1) (sortByStart filtered))

/-- One match of the heading+code-block regex of `_parse_by_code_blocks`,
abstracted to its span and its two groups. -/
structure CodeMatch where
  cstart : Nat
  cend : Nat
  g1 : Str := []
  g2 : Str := []
deriving DecidableEq, Repr

/-- `re.search(r'(\d+)', s)` as a number. -/
def firstNumIn : Str → Option Nat
  | [] => none
  | c :: rest =>
    if isAsciiDigit c then some (digitsToNat (c :: rest.takeWhile isAsciiDigit))
    else firstNumIn rest

/-- `QAParser._parse_by_code_blocks`, over an abstract match list. -/
def parseByCodeBlocks (cmatches : List CodeMatch) : List QAPair :=
  cmatches.map (fun m =>
    { question := pyStrip m.g1, answer := pyStrip m.g2,
      question_num := firstNumIn (pyStrip m.g1),
      start_pos := m.cstart, end_pos := m.cend })

/-- `^\d+[\.、]` (`re.match`). -/
def startsNumDot (cs : Str) : Bool :=
  match cs with
  | c :: rest =>
    isAsciiDigit c &&
      (match (rest.dropWhile isAsciiDigit).head? with
       | some d => d = '.' || d = '、'
       | none => false)
  | [] => false

/-- `^#{1,4}\s*\d` prefix of `re.match(r'^#{1,4}\s*\d+', ·)`. -/
def startsHashNum (cs : Str) : Bool :=
  match cs with
  | '#' :: rest =>
    1 + (rest.takeWhile (fun c => c = '#')).length ≤ 4 &&
      (match ((rest.dropWhile (fun c => c = '#')).dropWhile pyIsSpace).head? with
       | some d => isAsciiDigit d
       | none => false)
  | _ => false

/-- The question test of `_parse_by_paragraphs`: ends in `?`/`？`, or
starts with a numbering or heading pattern. -/
def isQuestionPara (para : Str) : Bool :=
  para.getLast? = some '?' || para.getLast? = some '？' ||
  startsNumDot para || startsHashNum para

/-- The paragraph loop of `_parse_by_paragraphs`, with the locals
(`current_question`, `current_answer_parts`, `current_start`, `position`)
threaded; emitted pairs are produced in order. -/
def p3Loop : List Str → Option Str → List Str → Nat → Nat → List QAPair
  | [], currentQ, parts, currentStart, position =>
    match currentQ with
    | some q =>
      if parts ≠ [] then
        [{ question := q, answer := joinSep ['\n', '\n'] parts,
           start_pos := currentStart, end_pos := position }]
      else []
    | none => []
  | para0 :: rest, currentQ, parts, currentStart, position =>
    let para := pyStrip para0
    if para = [] then p3Loop rest currentQ parts currentStart (position + 2)
    else if isQuestionPara para then
      (match currentQ with
       | some q =>
         if parts ≠ [] then
           [{ question := q, answer := joinSep ['\n', '\n'] parts,
              start_pos := currentStart, end_pos := position }]
         else []
       | none => []) ++
        p3Loop rest (some para) [] position (position + para.length + 2)
    else
      p3Loop rest currentQ
        (if currentQ.isSome then parts ++ [para] else parts)
        currentStart (position + para.length + 2)

/-- `QAParser._parse_by_paragraphs`. -/
def parseByParagraphs (text : Str) : List QAPair :=
  p3Loop (splitBlank text) none [] 0 0

/-- `QAParser.parse`: empty input short-circuits; otherwise the three
strategies are tried in order on the normalised text and the first
non-empty result is used, then `source_file`/`page_num` are filled in. -/
def parse (qmatches : List QMarker) (cmatches : List CodeMatch) (text : Str)
    (source_file : Option Str) (page_num : Option Nat) : List QAPair :=
  if pyStrip text = [] then []
  else
    let t := qaNormalizeText text
    let s1 := parseByQuestionMarkers qmatches t
    let ps :=
      if s1 ≠ [] then s1
      else
        let s2 := parseByCodeBlocks cmatches
        if s2 ≠ [] then s2 else parseByParagraphs t
    ps.map (fun qa =>
      { qa with source_file := source_file, page_num := page_num })

theorem insertByStart_mem (m : QMarker) :
    ∀ (l : List QMarker) (x : QMarker), x ∈ insertByStart m l → x = m ∨ x ∈ l := by
  intro l
  induction l with
  | nil => intro x hx; simp [insertByStart] at hx; exact Or.inl hx
  | cons y rest ih =>
    intro x hx
    simp only [insertByStart] at hx
    split at hx
    · rcases List.mem_cons.1 hx with h | h
      · exact Or.inl h
      · exact Or.inr h
    · rcases List.mem_cons.1 hx with h | h
      · exact Or.inr (h ▸ List.mem_cons_self _ _)
      · rcases ih x h with h | h
        · exact Or.inl h
        · exact Or.inr (List.mem_cons_of_mem _ h)

theorem sortByStart_mem :
    ∀ (l : List QMarker) (x : QMarker), x ∈ sortByStart l → x ∈ l := by
  intro l
  induction l with
  | nil => intro x hx; cases hx
  | cons m rest ih =>
    intro x hx
    rcases insertByStart_mem m _ x hx with h | h
    · exact h ▸ List.mem_cons_self _ _
    · exact List.mem_cons_of_mem _ (ih x h)

theorem dedupPositions_props :
    ∀ (l : List QMarker) (lastEnd : Int),
    (∀ m ∈ l, m.mstart ≤ m.mend) →
    (∀ m ∈ dedupPositions lastEnd l, lastEnd ≤ (m.mstart : Int) ∧ m ∈ l) ∧
    List.Chain' (fun a b => a.mend ≤ b.mstart) (dedupPositions lastEnd l) := by
  intro l
  induction l with
  | nil =>
    intro lastEnd _
    refine ⟨fun m hm => ?_, List.chain'_nil⟩
    cases hm
  | cons m rest ih =>
    intro lastEnd hse
    have hrest : ∀ x ∈ rest, x.mstart ≤ x.mend :=
      fun x hx => hse x (List.mem_cons_of_mem _ hx)
    by_cases hk : (m.mstart : Int) ≥ lastEnd
    · simp only [dedupPositions, if_pos hk]
      obtain ⟨ihm, ihch⟩ := ih (m.mend : Int) hrest
      constructor
      · intro x hx
        rcases List.mem_cons.1 hx with rfl | hx
        · exact ⟨hk, List.mem_cons_self _ _⟩
        · refine ⟨?_, List.mem_cons_of_mem _ (ihm x hx).2⟩
          have h1 := (ihm x hx).1
          have h2 := hse m (List.mem_cons_self _ _)
          have : (m.mstart : Int) ≤ (m.mend : Int) := by exact_mod_cast h2
          omega
      · rw [List.chain'_cons']
        refine ⟨?_, ihch⟩
        intro b hb
        have hbm := List.mem_of_mem_head? hb
        have := (ihm b hbm).1
        exact_mod_cast this
    · simp only [dedupPositions, if_neg hk]
      obtain ⟨ihm, ihch⟩ := ih lastEnd hrest
      exact ⟨fun x hx => ⟨(ihm x hx).1, List.mem_cons_of_mem _ (ihm x hx).2⟩, ihch⟩

theorem marker_chain_start_mono :
    ∀ (l : List QMarker) (m : QMarker),
    List.Chain' (fun a b => a.mend ≤ b.mstart) (m :: l) →
    (∀ x ∈ m :: l, x.mstart ≤ x.mend) →
    ∀ x ∈ m :: l, m.mstart ≤ x.mstart := by
  intro l
  induction l with
  | nil =>
    intro m _ _ x hx
    rcases List.mem_cons.1 hx with rfl | hx
    · exact le_rfl
    · cases hx
  | cons y rest ih =>
    intro m hch hse x hx
    rcases List.mem_cons.1 hx with rfl | hx
    · exact le_rfl
    · have hmy : m.mend ≤ y.mstart := (List.chain'_cons.1 hch).1
      have h1 : y.mstart ≤ x.mstart :=
        ih y (List.chain'_cons.1 hch).2
          (fun z hz => hse z (List.mem_cons_of_mem _ hz)) x hx
      have h2 : m.mstart ≤ m.mend := hse m (List.mem_cons_self _ _)
      omega

theorem buildPairs_props (text : Str) :
    ∀ (l : List QMarker),
    (∀ m ∈ l, m.mstart ≤ m.mend ∧ m.mend ≤ text.length) →
    List.Chain' (fun a b => a.mend ≤ b.mstart) l →
    (∀ p ∈ buildPairs text l, p.start_pos ≤ p.end_pos) ∧
    List.Chain' (fun p q => p.end_pos ≤ q.start_pos) (buildPairs text l) ∧
    (∀ p ∈ buildPairs text l, ∃ m ∈ l, p.start_pos = m.mstart) := by
  intro l
  induction l with
  | nil =>
    intro _ _
    refine ⟨fun p hp => ?_, List.chain'_nil, fun p hp => ?_⟩ <;> cases hp
  | cons m tail ih =>
    intro hse hch
    cases tail with
    | nil =>
      have hm := hse m (List.mem_cons_self _ _)
      by_cases ha :
          cleanAnswerText (pyStrip (pySlice text m.mend text.length)) ≠ []
      · simp only [buildPairs, if_pos ha]
        refine ⟨fun p hp => ?_, ?_, fun p hp => ?_⟩
        · rcases List.mem_singleton.1 hp with rfl
          show m.mstart ≤ text.length
          omega
        · exact List.chain'_singleton _
        · rcases List.mem_singleton.1 hp with rfl
          exact ⟨m, List.mem_cons_self _ _, rfl⟩
      · simp only [buildPairs, if_neg ha]
        refine ⟨fun p hp => ?_, List.chain'_nil, fun p hp => ?_⟩ <;> cases hp
    | cons m2 rest =>
      have hm := hse m (List.mem_cons_self _ _)
      have hse2 : ∀ x ∈ m2 :: rest, x.mstart ≤ x.mend ∧ x.mend ≤ text.length :=
        fun x hx => hse x (List.mem_cons_of_mem _ hx)
      have hch2 : List.Chain' (fun a b => a.mend ≤ b.mstart) (m2 :: rest) :=
        (List.chain'_cons.1 hch).2
      have hm12 : m.mend ≤ m2.mstart := (List.chain'_cons.1 hch).1
      obtain ⟨ih1, ih2, ih3⟩ := ih hse2 hch2
      have hmono := marker_chain_start_mono rest m2 hch2
        (fun x hx => (hse2 x hx).1)
      by_cases ha : cleanAnswerText (pyStrip (pySlice text m.mend m2.mstart)) ≠ []
      · simp only [buildPairs, if_pos ha, List.singleton_append]
        refine ⟨fun p hp => ?_, ?_, fun p hp => ?_⟩
        · rcases List.mem_cons.1 hp with rfl | hp
          · show m.mstart ≤ m2.mstart
            omega
          · exact ih1 p hp
        · rw [List.chain'_cons']
          refine ⟨?_, ih2⟩
          intro b hb
          have hbm := List.mem_of_mem_head? hb
          obtain ⟨m', hm', hbs⟩ := ih3 b hbm
          show m2.mstart ≤ b.start_pos
          rw [hbs]
          exact hmono m' hm'
        · rcases List.mem_cons.1 hp with rfl | hp
          · exact ⟨m, List.mem_cons_self _ _, rfl⟩
          · obtain ⟨m', hm', hbs⟩ := ih3 p hp
            exact ⟨m', List.mem_cons_of_mem _ hm', hbs⟩
      · simp only [buildPairs, if_neg ha, List.nil_append]
        refine ⟨ih1, ih2, fun p hp => ?_⟩
        obtain ⟨m', hm', hbs⟩ := ih3 p hp
        exact ⟨m', List.mem_cons_of_mem _ hm', hbs⟩

theorem p3Loop_props :
    ∀ (paras : List Str) (currentQ : Option Str) (parts : List Str)
      (currentStart position : Nat),
    currentStart ≤ position →
    (∀ p ∈ p3Loop paras currentQ parts currentStart position,
      currentStart ≤ p.start_pos ∧ p.start_pos ≤ p.end_pos) ∧
    List.Chain' (fun p q => p.end_pos ≤ q.start_pos)
      (p3Loop paras currentQ parts currentStart position) := by
  intro paras
  induction paras with
  | nil =>
    intro currentQ parts currentStart position hsp
    cases currentQ with
    | none =>
      refine ⟨fun p hp => ?_, List.chain'_nil⟩
      cases hp
    | some q =>
      by_cases hpp : parts ≠ []
      · simp only [p3Loop, if_pos hpp]
        refine ⟨fun p hp => ?_, List.chain'_singleton _⟩
        rcases List.mem_singleton.1 hp with rfl
        exact ⟨le_rfl, hsp⟩
      · simp only [p3Loop, if_neg hpp]
        refine ⟨fun p hp => ?_, List.chain'_nil⟩
        cases hp
  | cons para0 rest ih =>
    intro currentQ parts currentStart position hsp
    by_cases hpe : pyStrip para0 = []
    · simp only [p3Loop, if_pos hpe]
      exact ih currentQ parts currentStart (position + 2) (by omega)
    · by_cases hq : isQuestionPara (pyStrip para0) = true
      · obtain ⟨ihm, ihch⟩ := ih (some (pyStrip para0)) [] position
          (position + (pyStrip para0).length + 2) (by omega)
        cases currentQ with
        | none =>
          simp only [p3Loop, if_neg hpe, if_pos hq, List.nil_append]
          refine ⟨fun p hp => ?_, ihch⟩
          obtain ⟨h1, h2⟩ := ihm p hp
          exact ⟨by omega, h2⟩
        | some q =>
          simp only [p3Loop, if_neg hpe, if_pos hq]
          by_cases hpp : parts ≠ []
          · rw [if_pos hpp, List.singleton_append]
            constructor
            · intro p hp
              rcases List.mem_cons.1 hp with rfl | hp
              · exact ⟨le_rfl, hsp⟩
              · obtain ⟨h1, h2⟩ := ihm p hp
                exact ⟨by omega, h2⟩
            · rw [List.chain'_cons']
              refine ⟨fun b hb => ?_, ihch⟩
              have h1 := (ihm b (List.mem_of_mem_head? hb)).1
              show position ≤ b.start_pos
              omega
          · rw [if_neg hpp, List.nil_append]
            refine ⟨fun p hp => ?_, ihch⟩
            obtain ⟨h1, h2⟩ := ihm p hp
            exact ⟨by omega, h2⟩
      · simp only [p3Loop, if_neg hpe, if_neg hq]
        exact ih currentQ _ currentStart (position + (pyStrip para0).length + 2)
          (by omega)

theorem chain_bounds_head_le :
    ∀ (l : List QAPair) (p : QAPair),
    List.Chain' (fun a b => a.end_pos ≤ b.start_pos) (p :: l) →
    (∀ x ∈ p :: l, x.start_pos ≤ x.end_pos) →
    ∀ q ∈ l, p.end_pos ≤ q.start_pos := by
  intro l
  induction l with
  | nil =>
    intro p _ _ q hq
    cases hq
  | cons y rest ih =>
    intro p hch hse q hq
    have hpy : p.end_pos ≤ y.start_pos := (List.chain'_cons.1 hch).1
    rcases List.mem_cons.1 hq with rfl | hq
    · exact hpy
    · have h1 := ih y (List.chain'_cons.1 hch).2
        (fun x hx => hse x (List.mem_cons_of_mem _ hx)) q hq
      have h2 : y.start_pos ≤ y.end_pos :=
        hse y (List.mem_cons_of_mem _ (List.mem_cons_self _ _))
      omega

theorem chain_bounds_pairwise :
    ∀ (l : List QAPair),
    List.Chain' (fun a b => a.end_pos ≤ b.start_pos) l →
    (∀ p ∈ l, p.start_pos ≤ p.end_pos) →
    List.Pairwise (fun a b => a.end_pos ≤ b.start_pos) l := by
  intro l
  induction l with
  | nil => intro _ _; exact List.Pairwise.nil
  | cons p rest ih =>
    intro hch hse
    rw [List.pairwise_cons]
    exact ⟨chain_bounds_head_le rest p hch hse,
      ih (List.chain'_cons'.1 hch).2
        (fun q hq => hse q (List.mem_cons_of_mem _ hq))⟩

theorem parseByQuestionMarkers_props (qmatches : List QMarker) (t : Str)
    (hq : ∀ m ∈ qmatches, m.mstart ≤ m.mend ∧ m.mend ≤ t.length) :
    (∀ p ∈ parseByQuestionMarkers qmatches t, p.start_pos ≤ p.end_pos) ∧
    List.Chain' (fun a b => a.end_pos ≤ b.start_pos)
      (parseByQuestionMarkers qmatches t) := by
  unfold parseByQuestionMarkers
  by_cases hf : qmatches.filter (fun m => ! isStepMarker m.qtext) = []
  · rw [if_pos hf]
    refine ⟨fun p hp => ?_, List.chain'_nil⟩
    cases hp
  · rw [if_neg hf]
    have hmem : ∀ m ∈ sortByStart
        (qmatches.filter (fun m => ! isStepMarker m.qtext)),
        m.mstart ≤ m.mend ∧ m.mend ≤ t.length := by
      intro m hm
      exact hq m (List.mem_of_mem_filter (sortByStart_mem _ m hm))
    obtain ⟨hdm, hdch⟩ := dedupPositions_props
      (sortByStart (qmatches.filter (fun m => ! isStepMarker m.qtext))) (-1)
      (fun m hm => (hmem m hm).1)
    have hse : ∀ m ∈ dedupPositions (-1)
        (sortByStart (qmatches.filter (fun m => ! isStepMarker m.qtext))),
        m.mstart ≤ m.mend ∧ m.mend ≤ t.length :=
      fun m hm => hmem m (hdm m hm).2
    obtain ⟨h1, h2, _⟩ := buildPairs_props t _ hse hdch
    exact ⟨h1, h2⟩

theorem parse_props_core (qmatches : List QMarker) (cmatches : List CodeMatch)
    (text : Str) (sf : Option Str) (pn : Option Nat)
    (hq : ∀ m ∈ qmatches,
      m.mstart ≤ m.mend ∧ m.mend ≤ (qaNormalizeText text).length)
    (hc1 : ∀ m ∈ cmatches, m.cstart ≤ m.cend)
    (hc2 : List.Chain' (fun a b => a.cend ≤ b.cstart) cmatches) :
    (∀ p ∈ parse qmatches cmatches text sf pn, p.start_pos ≤ p.end_pos) ∧
    List.Chain' (fun a b => a.end_pos ≤ b.start_pos)
      (parse qmatches cmatches text sf pn) := by
  unfold parse
  by_cases ht : pyStrip text = []
  · rw [if_pos ht]
    refine ⟨fun p hp => ?_, List.chain'_nil⟩
    cases hp
  · rw [if_neg ht]
    have hcore :
        (∀ p ∈ (if parseByQuestionMarkers qmatches (qaNormalizeText text) ≠ []
            then parseByQuestionMarkers qmatches (qaNormalizeText text)
            else if parseByCodeBlocks cmatches ≠ []
              then parseByCodeBlocks cmatches
              else parseByParagraphs (qaNormalizeText text)),
          p.start_pos ≤ p.end_pos) ∧
        List.Chain' (fun a b => a.end_pos ≤ b.start_pos)
          (if parseByQuestionMarkers qmatches (qaNormalizeText text) ≠ []
            then parseByQuestionMarkers qmatches (qaNormalizeText text)
            else if parseByCodeBlocks cmatches ≠ []
              then parseByCodeBlocks cmatches
              else parseByParagraphs (qaNormalizeText text)) := by
      split
      · exact parseByQuestionMarkers_props qmatches (qaNormalizeText text) hq
      · split
        · constructor
          · intro p hp
            rcases List.mem_map.1 hp with ⟨m, hm, rfl⟩
            exact hc1 m hm
          · unfold parseByCodeBlocks
            exact (List.chain'_map _).2 hc2
        · obtain ⟨h1, h2⟩ := p3Loop_props
            (splitBlank (qaNormalizeText text)) none [] 0 0 le_rfl
          exact ⟨fun p hp => (h1 p hp).2, h2⟩
    constructor
    · intro p hp
      rcases List.mem_map.1 hp with ⟨q, hq', rfl⟩
      exact hcore.1 q hq'
    · exact (List.chain'_map _).2 hcore.2

/-- C3: for every input text and every well-formed regex match list (the
span facts `start ≤ end ≤ len` that `re.finditer` guarantees, and ordered
non-overlapping spans for the single code-block scan), the QAPair list
returned by `QAParser.parse` has `start_pos ≤ end_pos` for every pair,
adjacent pairs satisfy `end_pos ≤ next.start_pos` (non-overlapping), and
the list is sorted by `start_pos`. -/
theorem parse_sorted_nonoverlapping (qmatches : List QMarker)
    (cmatches : List CodeMatch) (text : Str) (sf : Option Str)
    (pn : Option Nat)
    (hq : ∀ m ∈ qmatches,
      m.mstart ≤ m.mend ∧ m.mend ≤ (qaNormalizeText text).length)
    (hc1 : ∀ m ∈ cmatches, m.cstart ≤ m.cend)
    (hc2 : List.Chain' (fun a b => a.cend ≤ b.cstart) cmatches) :
    (∀ p ∈ parse qmatches cmatches text sf pn, p.start_pos ≤ p.end_pos) ∧
    List.Chain' (fun a b => a.end_pos ≤ b.start_pos)
      (parse qmatches cmatches text sf pn) ∧
    List.Pairwise (fun a b => a.start_pos ≤ b.start_pos)
      (parse qmatches cmatches text sf pn) := by
  obtain ⟨h1, h2⟩ := parse_props_core qmatches cmatches text sf pn hq hc1 hc2
  refine ⟨h1, h2, ?_⟩
  have hpw := chain_bounds_pairwise _ h2 h1
  refine hpw.imp_of_mem ?_
  intro a b ha hb hab
  have h3 := h1 a ha
  omega

def scenarioAText : Str :=
  "1. 什么是进程？\n\n进程是资源分配的基本单位。\n\n2. 什么是线程？\n\n线程是CPU调度的基本单位。".toList

/-- Witness for C3 at spec Scenario A's text (the paragraph fallback
produces two adjacent pairs). -/
theorem parse_sorted_witness :
    (∀ p ∈ parse [] [] scenarioAText none none, p.start_pos ≤ p.end_pos) ∧
    List.Chain' (fun a b => a.end_pos ≤ b.start_pos)
      (parse [] [] scenarioAText none none) ∧
    List.Pairwise (fun a b => a.start_pos ≤ b.start_pos)
      (parse [] [] scenarioAText none none) :=
  parse_sorted_nonoverlapping [] [] scenarioAText none none
    (by simp) (by simp) (by simp)

theorem p3Loop_no_questions :
    ∀ (paras : List Str) (parts : List Str) (currentStart position : Nat),
    (∀ p ∈ paras, isQuestionPara (pyStrip p) = false) →
    p3Loop paras none parts currentStart position = [] := by
  intro paras
  induction paras with
  | nil => intro parts currentStart position _; rfl
  | cons para0 rest ih =>
    intro parts currentStart position hnq
    by_cases hpe : pyStrip para0 = []
    · simp only [p3Loop, if_pos hpe]
      exact ih parts currentStart (position + 2)
        (fun p hp => hnq p (List.mem_cons_of_mem _ hp))
    · have hq : ¬ isQuestionPara (pyStrip para0) = true := by
        rw [hnq para0 (List.mem_cons_self _ _)]
        exact Bool.false_ne_true
      simp only [p3Loop, if_neg hpe, if_neg hq, Option.isSome_none,
        Bool.false_eq_true, if_false]
      exact ih parts currentStart (position + (pyStrip para0).length + 2)
        (fun p hp => hnq p (List.mem_cons_of_mem _ hp))

/-- C9: when no question marker survives the step filter, the code-block
scan has no match and the paragraph fallback classifies no paragraph as a
question, `parse` returns the empty list. (Totality — "never raises" — is
reflected by the embedding: `parse` and every strategy are total
functions.) -/
theorem parse_no_structure (qmatches : List QMarker)
    (cmatches : List CodeMatch) (text : Str) (sf : Option Str)
    (pn : Option Nat)
    (h1 : qmatches.filter (fun m => ! isStepMarker m.qtext) = [])
    (h2 : cmatches = [])
    (h3 : ∀ p ∈ splitBlank (qaNormalizeText text),
      isQuestionPara (pyStrip p) = false) :
    parse qmatches cmatches text sf pn = [] := by
  unfold parse
  by_cases ht : pyStrip text = []
  · rw [if_pos ht]
  · rw [if_neg ht]
    have hs1 : parseByQuestionMarkers qmatches (qaNormalizeText text) = [] := by
      unfold parseByQuestionMarkers
      rw [if_pos h1]
    have hs2 : parseByCodeBlocks cmatches = [] := by
      rw [h2]
      rfl
    have hs3 : parseByParagraphs (qaNormalizeText text) = [] :=
      p3Loop_no_questions _ [] 0 0 h3
    simp only [hs1, hs2, hs3, ne_eq, not_true_eq_false, if_false, List.map_nil]

/-- Witness for C9 at an unstructured two-paragraph text. -/
theorem parse_no_structure_witness :
    parse [] [] ("hello\n\nworld".toList) none none = [] :=
  parse_no_structure [] [] ("hello\n\nworld".toList) none none rfl rfl
    (by decide)
